import Mathlib

/-!
Verification of the `tecs` archetype-based ECS core (crate `tecs`, files
`src/lib.rs`, `src/vecany.rs`, `src/scene.rs`, and the derived `Archetype`
implementation from `tecs_derive/src/lib.rs`).

Shallow embedding conventions:
* Rust `TypeId` is modelled as `Nat`.
* Component values are modelled as `Nat` (the type-erasure machinery only
  inspects type tags, never the bits of a value, so a single value carrier
  suffices; a Rust value of static type `T` is modelled as a pair of its
  tag `T : TypeId` and its payload).
* `HashMap` is modelled as an association list with `ainsert` mirroring
  `HashMap::insert` (replace if present, else add) and `aerase` mirroring
  `HashMap::remove`'s effect on the map.
* Panics are modelled by `Option`/`Except` failure values, as noted at each
  definition.
* The derive-generated `Archetype` methods (`columns`, `add`, `remove`,
  `get`) are generic over the derived struct's field-type list (`schema`),
  exactly mirroring the token-for-token expansion in `tecs_derive`.
-/

namespace Tecs

abbrev TypeId := Nat

/-- Rust `Vec::swap_remove(i)`: replace element `i` with the last element and
pop the last element. (`List.set` and `dropLast` reproduce this for `i` in
bounds; Rust panics out of bounds, a case never reached in this development.) -/
def swapRemove (l : List Nat) (i : Nat) : List Nat :=
  (l.set i (l.getLastD 0)).dropLast

/-- `HashMap::get` on an association list. -/
def alookup {α : Type} : List (Nat × α) → Nat → Option α
  | [], _ => none
  | (k, v) :: rest, key => if k = key then some v else alookup rest key

/-- `HashMap::insert` on an association list: replace the entry if the key is
present, otherwise append a new entry. -/
def ainsert {α : Type} (key : Nat) (v : α) : List (Nat × α) → List (Nat × α)
  | [] => [(key, v)]
  | (k, w) :: rest => if k = key then (key, v) :: rest else (k, w) :: ainsert key v rest

/-- `HashMap::remove`'s effect on the map: drop the entry with the given key. -/
def aerase {α : Type} (key : Nat) : List (Nat × α) → List (Nat × α)
  | [] => []
  | (k, w) :: rest => if k = key then rest else (k, w) :: aerase key rest

/-- Keys of an association list. -/
def keysOf {α : Type} (l : List (Nat × α)) : List Nat := l.map Prod.fst

/-- `src/vecany.rs`: a type-erased vector. `ptr = none` models the
unallocated state of `new_uninit`; `ty` is the bound element type identity. -/
structure VecAny where
  ptr : Option (List Nat)
  ty : TypeId
  deriving DecidableEq

/-- `VecAny::new_uninit`. -/
def VecAny.new_uninit (ty : TypeId) : VecAny := ⟨none, ty⟩

/-- The element sequence currently stored (`None` reads as the empty slice,
as in `downcast_ref`/`run`). -/
def VecAny.dataList (v : VecAny) : List Nat := v.ptr.getD []

/-- `VecAny::run::<T>(f)`: if the bound type tag does not match `T`, silently
do nothing; otherwise materialise the vector, apply `f`, and store the result. -/
def VecAny.run (v : VecAny) (T : TypeId) (f : List Nat → List Nat) : VecAny :=
  if v.ty ≠ T then v else { ptr := some (f v.dataList), ty := v.ty }

/-- `VecAny::push::<T>(item)`. -/
def VecAny.push (v : VecAny) (T : TypeId) (item : Nat) : VecAny :=
  v.run T (fun data => data ++ [item])

/-- `VecAny::downcast_ref::<T>()`: `none` on a type-tag mismatch, otherwise
the stored slice. -/
def VecAny.downcast_ref (v : VecAny) (T : TypeId) : Option (List Nat) :=
  if v.ty ≠ T then none else some v.dataList

/-- `VecAny::len` (the stored length always equals the vector's length). -/
def VecAny.len (v : VecAny) : Nat := v.dataList.length

/-- `src/lib.rs` `Column`: wraps a `VecAny`. -/
structure Column where
  data : VecAny
  deriving DecidableEq

/-- `Column::new(ty)`. -/
def Column.new (ty : TypeId) : Column := ⟨VecAny.new_uninit ty⟩

/-- `Column::get::<T>(index)`: `downcast_ref` then index. -/
def Column.get (c : Column) (T : TypeId) (index : Nat) : Option Nat :=
  (c.data.downcast_ref T).bind (fun l => l[index]?)

/-- `src/lib.rs` `Table`: a shared row count plus one tagged column per
declared component type. `saved` records whether the serialize/deserialize
function pointers are bound (`Table::new`) or absent (`Table::new_unsaved`). -/
structure Table where
  length : Nat
  columns : List (TypeId × Column)
  saved : Bool
  deriving DecidableEq

/-- `Table::new_unsaved::<T>()`, with `schema = T::columns()`. -/
def Table.new_unsaved (schema : List TypeId) : Table :=
  ⟨0, schema.map (fun ty => (ty, Column.new ty)), false⟩

/-- `Table::new::<T>()`, with `schema = T::columns()`: same columns, with the
serializer/deserializer bound. -/
def Table.new (schema : List TypeId) : Table :=
  ⟨0, schema.map (fun ty => (ty, Column.new ty)), true⟩

/-- `Table::has_column::<T>()`. -/
def Table.has_column (t : Table) (T : TypeId) : Bool :=
  t.columns.any (fun c => c.1 == T)

/-- `Table::column::<T>()`: find the first column tagged `T` and downcast it.
(The source panics if the downcast of a found column fails; that branch is
unreachable because every column's `VecAny` tag equals its slot tag, which
this model keeps as the `bind` returning `none` — never hit under `TableWF`.) -/
def Table.column (t : Table) (T : TypeId) : Option (List Nat) :=
  (t.columns.find? (fun c => c.1 == T)).bind (fun c => c.2.data.downcast_ref T)

/-- `Table::len()`. -/
def Table.len (t : Table) : Nat := t.length

/-!
Derive-generated `Archetype` implementation (`tecs_derive/src/lib.rs`).
A derived struct is modelled by its ordered field-type list `schema`
(`T::columns()`) and a value of it by the ordered field-value list `vals`.
The generated code walks the table's column iterator positionally, in
lockstep with the field list.
-/

/-- The column-pushing loop of the derived `Archetype::add`: positionally push
each field (with its static type tag) into the next column. (The source would
panic if the table had fewer columns than the struct has fields — those arms
return the remaining input unchanged and are unreachable for a table built
from the same schema.) -/
def pushFields : List (TypeId × Column) → List TypeId → List Nat → List (TypeId × Column)
  | (ty, col) :: cols, fty :: ftys, v :: vs =>
      (ty, ⟨col.data.push fty v⟩) :: pushFields cols ftys vs
  | cols, _, _ => cols

/-- Derived `Archetype::add`: increment the row count, push every field,
return the new row's index (`length - 1` after the increment). -/
def Archetype.add (schema : List TypeId) (vals : List Nat) (t : Table) : Table × Nat :=
  let len := t.length + 1
  ({ length := len, columns := pushFields t.columns schema vals, saved := t.saved }, len - 1)

/-- The column loop of the derived `Archetype::remove`: positionally
`run::<FieldTy>(swap_remove(row))` on each column. -/
def removeFields : List (TypeId × Column) → List TypeId → Nat → List (TypeId × Column)
  | (ty, col) :: cols, fty :: ftys, row =>
      (ty, ⟨col.data.run fty (fun data => swapRemove data row)⟩) :: removeFields cols ftys row
  | cols, _, _ => cols

/-- Derived `Archetype::remove`: decrement the row count, then swap-remove the
row out of every column. -/
def Archetype.remove (schema : List TypeId) (t : Table) (row : Nat) : Table :=
  { length := t.length - 1, columns := removeFields t.columns schema row, saved := t.saved }

/-- The column loop of the derived `Archetype::get`: positionally read each
column at `row` with the static field type; any failed read is the source's
`unwrap` panic, modelled as `none`. -/
def getFields : List (TypeId × Column) → List TypeId → Nat → Option (List Nat)
  | _, [], _ => some []
  | (_, col) :: cols, fty :: ftys, row => do
      let v ← col.get fty row
      let vs ← getFields cols ftys row
      pure (v :: vs)
  | [], _ :: _, _ => none

/-- Derived `Archetype::get`: reconstruct the full field-value list of a row. -/
def Archetype.get (schema : List TypeId) (t : Table) (row : Nat) : Option (List Nat) :=
  getFields t.columns schema row

/-!
`World` (`src/lib.rs`). `EntityId` is a `Nat`; the entity-identity map binds
an id to `(archetype TypeId, row index)`. Resources model `Rc<RefCell<dyn
Any>>` slots: `extraHandles` is the number of `Rc` clones held outside the
map (so `Rc::into_inner` succeeds exactly when it is zero). The static
type information of Rust generics is modelled by `schemaOf : TypeId →
List TypeId`, giving each archetype type identity its `columns()` list.
-/

structure Res where
  value : List Nat
  extraHandles : Nat
  deriving DecidableEq

structure World where
  next_id : Nat
  entities : List (Nat × TypeId × Nat)
  archetypes : List (TypeId × Table)
  resources : List (Nat × Res)
  deriving DecidableEq

/-- `World::new()` / `Default`. -/
def World.empty : World := ⟨0, [], [], []⟩

/-- `World::register::<T>()`: `self.archetypes.insert(TypeId::of::<T>(),
Table::new::<T>())` — a plain map insert, which silently replaces any table
already registered under the same type identity. -/
def World.register (w : World) (schemaOf : TypeId → List TypeId) (tid : TypeId) : World :=
  { w with archetypes := ainsert tid (Table.new (schemaOf tid)) w.archetypes }

/-- `World::register_unsaved::<T>()`. -/
def World.register_unsaved (w : World) (schemaOf : TypeId → List TypeId) (tid : TypeId) :
    World :=
  { w with archetypes := ainsert tid (Table.new_unsaved (schemaOf tid)) w.archetypes }

/-- `World::with_resource::<T>(v)`: insert (replacing) a fresh
`Rc::new(RefCell::new(v))`, whose reference count is one. -/
def World.with_resource (w : World) (T : Nat) (v : List Nat) : World :=
  { w with resources := ainsert T ⟨v, 0⟩ w.resources }

/-- `World::spawn::<T>(entity)`: panic (`none`) if `T` is unregistered; else
`T::add` into the table, then record `next_id ↦ (T, table.len() - 1)` and
increment the id counter, returning the fresh id. -/
def World.spawn (w : World) (schemaOf : TypeId → List TypeId) (tid : TypeId)
    (vals : List Nat) : Option (World × Nat) :=
  match alookup w.archetypes tid with
  | none => none
  | some table =>
    let table1 := (Archetype.add (schemaOf tid) vals table).1
    some ({ w with
        archetypes := ainsert tid table1 w.archetypes,
        entities := ainsert w.next_id (tid, table1.length - 1) w.entities,
        next_id := w.next_id + 1 }, w.next_id)

/-- The fixup scan at the end of `World::despawn`: repoint the first entity
entry whose value is `(tid, target)` to row `newRow` (the source's
`values_mut().find(..).map(|r| *r = row)`). -/
def repoint (tid : TypeId) (target : Nat) (newRow : Nat) :
    List (Nat × TypeId × Nat) → List (Nat × TypeId × Nat)
  | [] => []
  | (id, t, r) :: rest =>
    if t = tid ∧ r = target then (id, t, newRow) :: rest
    else (id, t, r) :: repoint tid target newRow rest

/-- `World::despawn::<T>(id)`. The id's entry is removed from the identity
map first; a despawned-archetype mismatch then panics (`Except.error`
carrying the world state at the moment of the panic); otherwise `T::remove`
compacts the table and the fixup scan repoints the entity whose row equals
the table's new length (the row that was swapped into the vacated slot). -/
def World.despawn (w : World) (schemaOf : TypeId → List TypeId) (T : TypeId) (id : Nat) :
    Except World World :=
  match alookup w.entities id with
  | none => .ok w
  | some (tid, row) =>
    let entities1 := aerase id w.entities
    if tid ≠ T then .error { w with entities := entities1 }
    else
      match alookup w.archetypes tid with
      | none => .ok { w with entities := entities1 }
      | some table =>
        let table1 := Archetype.remove (schemaOf T) table row
        let entities2 := repoint tid table1.length row entities1
        .ok { w with entities := entities2, archetypes := ainsert tid table1 w.archetypes }

/-- `World::get_component::<T>(id)`: resolve the id to `(table, row)` and read
the `T` column at that row. (The source's `expect` on an unregistered table
identity is modelled as `none`; unreachable for live entities.) -/
def World.get_component (w : World) (T : TypeId) (id : Nat) : Option Nat :=
  match alookup w.entities id with
  | none => none
  | some (tid, row) =>
    match alookup w.archetypes tid with
    | none => none
    | some table => (table.column T).bind (fun col => col[row]?)

/-- `World::get::<T>()` (resource read; `get_mut` reads the same slot). -/
def World.getResource (w : World) (T : Nat) : Option (List Nat) :=
  (alookup w.resources T).map Res.value

/-- `World::remove::<T>()`: take the entry out of the map, then
`Rc::into_inner`, which yields the value only when no other shared handle is
alive (reference count one). The entry leaves the map in either case. -/
def World.remove (w : World) (T : Nat) : Option (List Nat) × World :=
  match alookup w.resources T with
  | none => (none, w)
  | some res =>
    ((if res.extraHandles = 0 then some res.value else none),
      { w with resources := aerase T w.resources })

/-!
Query algebra (`src/lib.rs`). Each per-slot filter type defines a table-level
boolean predicate; a tuple of filters combines them with `&&` (the
`impl_query!` expansion `$($ty::filter(table))&&+`). For the data side the
claims need the `&T` extraction: every matching table's `T` column,
concatenated in table-iteration order (`Columns::iter` flat-maps the
per-table slices).
-/

/-- One query-slot filter: `&T`, `&mut T`, `With<T>`, `Without<T>`,
`Is<A>`, `Option<&T>`, `EntityId`. -/
inductive QF where
  | qref (T : TypeId)
  | qmut (T : TypeId)
  | qwith (T : TypeId)
  | qwithout (T : TypeId)
  | qis (T : TypeId)
  | qopt (T : TypeId)
  | qentity
  deriving DecidableEq

/-- The per-slot `Query::filter` predicates, exactly as each impl writes them. -/
def QF.tableFilter : QF → TypeId × Table → Bool
  | .qref T, p => p.2.has_column T
  | .qmut T, p => p.2.has_column T
  | .qwith T, p => p.2.has_column T
  | .qwithout T, p => !p.2.has_column T
  | .qis T, p => p.1 == T
  | .qopt _, _ => true
  | .qentity, _ => true

/-- Tuple composition of filters: `$($ty::filter(table))&&+`. -/
def tupleFilter : List QF → TypeId × Table → Bool
  | [], _ => true
  | [q], p => q.tableFilter p
  | q :: qs, p => q.tableFilter p && tupleFilter qs p

/-- `World::query`'s table selection: all registered tables passing the
tuple filter. -/
def World.matchingTables (w : World) (qs : List QF) : List (TypeId × Table) :=
  w.archetypes.filter (tupleFilter qs)

/-- The `&T` slot data over a list of qualifying tables: each table's `T`
column (`table.column().unwrap()` — never absent for tables that passed a
filter containing `&T`), concatenated. -/
def refData (tables : List (TypeId × Table)) (T : TypeId) : List Nat :=
  (tables.map (fun p => (p.2.column T).getD [])).flatten

/-- `world.query::<(.., &T, ..)>()`, restricted to one `&T` slot's output. -/
def World.queryRef (w : World) (qs : List QF) (T : TypeId) : List Nat :=
  refData (w.matchingTables qs) T

/-!
System dispatch (`src/lib.rs`). A `System` holds its two capabilities; both
receive (shared) access to the world's data, whose mutations happen through
interior mutability, modelled by state passing. The systems list is stored
beside the data (`WorldS`); `tick`/`submit` iterate a snapshot of the list
(`self.systems.clone()`), which this embedding reflects by folding over the
list held before dispatch begins.
-/

structure SysF (E : Type) where
  eventFn : World → E → World
  tickFn : World → World

structure WorldS (E : Type) where
  base : World
  systems : List (SysF E)

/-- `World::with_system` (also `with_handler` / `with_ticker` /
`with_system_mut`, which merely wrap closures): append to the systems list. -/
def WorldS.with_system {E : Type} (w : WorldS E) (s : SysF E) : WorldS E :=
  { w with systems := w.systems ++ [s] }

/-- `World::tick()`: clone the systems list, then invoke `tick` on each in
order. -/
def WorldS.tick {E : Type} (w : WorldS E) : WorldS E :=
  { w with base := w.systems.foldl (fun b s => s.tickFn b) w.base }

/-- `World::submit(event)`: clone the systems list, then invoke `event` on
each in order with the same event. -/
def WorldS.submit {E : Type} (w : WorldS E) (e : E) : WorldS E :=
  { w with base := w.systems.foldl (fun b s => s.eventFn b e) w.base }

/-- A resource update through `get_mut` (`*world.get_mut::<R>().unwrap() = ..`
style): if the resource is present, replace its value by `f value`. Used to
instrument systems with an observable log. -/
def World.updateRes (w : World) (T : Nat) (f : List Nat → List Nat) : World :=
  match alookup w.resources T with
  | none => w
  | some res => { w with resources := ainsert T { res with value := f res.value } w.resources }

/-- A system that appends its tag to a log resource on `tick`, and appends
its tag followed by a projection of the event on `event` — the shared-log
instrumentation of spec Scenario C, used to observe dispatch order. -/
def loggerSys (E : Type) (f : E → Nat) (T : Nat) (tag : Nat) : SysF E :=
  ⟨fun w e => w.updateRes T (fun l => l ++ [tag, f e]),
   fun w => w.updateRes T (fun l => l ++ [tag])⟩

/-!
Scene serialization (`src/scene.rs`). A serialized row is its archetype's
field-value list (`Archetype::get` feeds `serde`); `DefaultHasher` on
`TypeId` is modelled as the identity encoding of the type identity (its only
used property is that it is deterministic and injective per process). A
scene-file row is either deserializable to a value (`good`) or malformed
(`bad`, on which the bound deserializer returns an error that
`DeserializeArchetype::deserialize` immediately `unwrap`s — a panic).
-/

def hashTid (tid : TypeId) : Nat := tid

/-- Mapping a fallible (panic-modelling) function over a list: the first
failure aborts (as an unwinding panic does). -/
def optMap {α β : Type} (f : α → Option β) : List α → Option (List β)
  | [] => some []
  | a :: rest => do
    let b ← f a
    let bs ← optMap f rest
    pure (b :: bs)

structure Scene where
  entities : List Nat
  deriving DecidableEq

/-- The grouping loop in `Scene::save`: append `row` to `tid`'s bucket,
creating the bucket on first sight. -/
def addToGroup (tid : TypeId) (row : Nat) :
    List (TypeId × List Nat) → List (TypeId × List Nat)
  | [] => [(tid, [row])]
  | (t, rows) :: rest =>
    if t = tid then (t, rows ++ [row]) :: rest else (t, rows) :: addToGroup tid row rest

/-- `Scene::save`'s first pass: resolve each recorded id through the identity
map (silently skipping dead ids) and group the resulting rows by table
identity, in scene order (accumulator-passing left fold). -/
def groupRowsAux (entities : List (Nat × TypeId × Nat)) :
    List (TypeId × List Nat) → List Nat → List (TypeId × List Nat)
  | acc, [] => acc
  | acc, id :: ids =>
    match alookup entities id with
    | none => groupRowsAux entities acc ids
    | some (tid, row) => groupRowsAux entities (addToGroup tid row acc) ids

def groupRows (entities : List (Nat × TypeId × Nat)) (ids : List Nat) :
    List (TypeId × List Nat) :=
  groupRowsAux entities [] ids

/-- `Scene::save`'s second pass, for one table's bucket: look the table up
(`unwrap` — `none` is the panic), require its serializer
(`table.serialize.unwrap()` — `none` when the table was registered unsaved),
and serialize each row via the bound `Archetype::get`. -/
def serializeGroup (w : World) (tid : TypeId) (rows : List Nat) :
    Option (Nat × List (List Nat)) := do
  let table ← alookup w.archetypes tid
  if table.saved then
    let srows ← optMap (fun row => Archetype.get (table.columns.map Prod.fst) table row) rows
    pure (hashTid tid, srows)
  else none

/-- `Scene::save`: the serialized scene, a map from archetype-identity hash
to the list of serialized rows. `none` models the panics
(`archetypes.get(..).unwrap()` / `table.serialize.unwrap()` / a failed row
read). -/
def Scene.save (s : Scene) (w : World) : Option (List (Nat × List (List Nat))) :=
  optMap (fun p => serializeGroup w p.1 p.2) (groupRows w.entities s.entities)

/-- One row of untrusted scene input: either deserializes to a field-value
list or is malformed. -/
inductive SceneRow where
  | good (vals : List Nat)
  | bad
  deriving DecidableEq

/-- The outcome of `Scene::load`: success (the updated world and the returned
`Scene`), or a panic with its message. -/
inductive LoadResult where
  | ok (w : World) (s : Scene)
  | panicked (msg : String)
  deriving DecidableEq

/-- `EntitiesSeed::visit_seq`: feed each row through the bound deserializer
(which calls `entity.add(table)`), collecting the returned row indices. A
malformed row is the `unwrap` in `DeserializeArchetype::deserialize` —
a panic, modelled `none`. -/
def addRows (schema : List TypeId) (table : Table) :
    List SceneRow → Option (Table × List Nat)
  | [] => some (table, [])
  | .bad :: _ => none
  | .good vals :: rest =>
    let added := Archetype.add schema vals table
    (addRows schema added.1 rest).map (fun p => (p.1, added.2 :: p.2))

/-- The id-minting loop after `next_value_seed` returns: for each
reconstructed row index, insert `next_id ↦ (tid, row)` and increment the
counter. (The fresh ids are also pushed to a local vector that the function
then discards.) -/
def insertLoaded (w : World) (tid : TypeId) : List Nat → World
  | [] => w
  | idx :: rest =>
    insertLoaded
      { w with entities := ainsert w.next_id (tid, idx) w.entities,
               next_id := w.next_id + 1 } tid rest

/-- `ArchetypesSeed::visit_map`: for each map key, find the registered table
whose identity hash matches (`expect` — a panic when absent), deserialize the
rows (the table's bound deserializer must exist: `deserialize.unwrap()`),
append them to the table, and mint fresh ids. Returns `Scene { entities:
Vec::new() }` — the empty list, not the collected ids. -/
def visitMap (w : World) : List (Nat × List SceneRow) → LoadResult
  | [] => .ok w ⟨[]⟩
  | (h, rows) :: rest =>
    match w.archetypes.find? (fun p => hashTid p.1 == h) with
    | none => .panicked "Missing archetype needed to deserialize scene"
    | some (tid, table) =>
      if table.saved then
        match addRows (table.columns.map Prod.fst) table rows with
        | none => .panicked "DeserializeArchetype unwrap on row error"
        | some (table1, idxs) =>
          visitMap (insertLoaded { w with archetypes := ainsert tid table1 w.archetypes }
            tid idxs) rest
      else .panicked "Table deserialize unwrap on None"

/-- `Scene::load`. -/
def Scene.load (w : World) (input : List (Nat × List SceneRow)) : LoadResult :=
  visitMap w input

/-! ### Basic lemmas: `swapRemove` -/

theorem swapRemove_length (l : List Nat) (i : Nat) :
    (swapRemove l i).length = l.length - 1 := by
  simp [swapRemove]

theorem swapRemove_getElem?_ne (l : List Nat) (i j : Nat)
    (hj : j < l.length - 1) (hne : j ≠ i) :
    (swapRemove l i)[j]? = l[j]? := by
  unfold swapRemove
  rw [List.getElem?_dropLast, List.length_set, if_pos hj,
    List.getElem?_set_ne (Ne.symm hne)]

theorem swapRemove_getElem?_eq (l : List Nat) (i : Nat) (hi : i < l.length - 1) :
    (swapRemove l i)[i]? = l[l.length - 1]? := by
  unfold swapRemove
  rw [List.getElem?_dropLast, List.length_set, if_pos hi,
    List.getElem?_set_self (by omega)]
  have hlen : l.length - 1 < l.length := by omega
  rw [List.getElem?_eq_getElem hlen, List.getLastD_eq_getLast?,
    List.getLast?_eq_getElem?, List.getElem?_eq_getElem hlen]
  simp

/-! ### Basic lemmas: association lists -/

@[simp] theorem alookup_nil {α : Type} (k : Nat) :
    alookup ([] : List (Nat × α)) k = none := rfl

@[simp] theorem alookup_cons {α : Type} (k0 k : Nat) (v0 : α) (tl : List (Nat × α)) :
    alookup ((k0, v0) :: tl) k = if k0 = k then some v0 else alookup tl k := rfl

@[simp] theorem ainsert_nil {α : Type} (k : Nat) (v : α) :
    ainsert k v ([] : List (Nat × α)) = [(k, v)] := rfl

@[simp] theorem ainsert_cons {α : Type} (k k0 : Nat) (v v0 : α) (tl : List (Nat × α)) :
    ainsert k v ((k0, v0) :: tl) =
      if k0 = k then (k, v) :: tl else (k0, v0) :: ainsert k v tl := rfl

@[simp] theorem aerase_nil {α : Type} (k : Nat) :
    aerase k ([] : List (Nat × α)) = [] := rfl

@[simp] theorem aerase_cons {α : Type} (k k0 : Nat) (v0 : α) (tl : List (Nat × α)) :
    aerase k ((k0, v0) :: tl) = if k0 = k then tl else (k0, v0) :: aerase k tl := rfl

@[simp] theorem keysOf_nil {α : Type} : keysOf ([] : List (Nat × α)) = [] := rfl

@[simp] theorem keysOf_cons {α : Type} (p : Nat × α) (tl : List (Nat × α)) :
    keysOf (p :: tl) = p.1 :: keysOf tl := rfl

theorem alookup_ainsert_self {α : Type} (l : List (Nat × α)) (k : Nat) (v : α) :
    alookup (ainsert k v l) k = some v := by
  induction l with
  | nil => simp
  | cons hd tl ih =>
    obtain ⟨k0, v0⟩ := hd
    by_cases h0 : k0 = k
    · simp [h0]
    · simp [h0, ih]

theorem alookup_ainsert_ne {α : Type} (l : List (Nat × α)) (k k' : Nat) (v : α)
    (h : k' ≠ k) : alookup (ainsert k v l) k' = alookup l k' := by
  induction l with
  | nil => simp [Ne.symm h]
  | cons hd tl ih =>
    obtain ⟨k0, v0⟩ := hd
    by_cases h0 : k0 = k
    · subst h0
      simp [Ne.symm h]
    · simp only [ainsert_cons, if_neg h0, alookup_cons, ih]

theorem alookup_aerase_ne {α : Type} (l : List (Nat × α)) (k k' : Nat)
    (h : k' ≠ k) : alookup (aerase k l) k' = alookup l k' := by
  induction l with
  | nil => simp
  | cons hd tl ih =>
    obtain ⟨k0, v0⟩ := hd
    by_cases h0 : k0 = k
    · subst h0
      simp [Ne.symm h]
    · simp only [aerase_cons, if_neg h0, alookup_cons, ih]

theorem alookup_eq_some_mem {α : Type} {l : List (Nat × α)} {k : Nat} {v : α}
    (h : alookup l k = some v) : (k, v) ∈ l := by
  induction l with
  | nil => simp at h
  | cons hd tl ih =>
    obtain ⟨k0, v0⟩ := hd
    by_cases h0 : k0 = k
    · subst h0
      rw [alookup_cons, if_pos rfl] at h
      obtain rfl := Option.some.inj h
      exact List.mem_cons_self _ _
    · rw [alookup_cons, if_neg h0] at h
      exact List.mem_cons_of_mem _ (ih h)

theorem alookup_eq_none_iff {α : Type} (l : List (Nat × α)) (k : Nat) :
    alookup l k = none ↔ k ∉ keysOf l := by
  induction l with
  | nil => simp
  | cons hd tl ih =>
    obtain ⟨k0, v0⟩ := hd
    by_cases h0 : k0 = k
    · subst h0
      simp
    · simp [h0, ih, (Ne.symm h0 : k ≠ k0)]

theorem mem_alookup {α : Type} {l : List (Nat × α)} {k : Nat} {v : α}
    (hnd : (keysOf l).Nodup) (h : (k, v) ∈ l) : alookup l k = some v := by
  induction l with
  | nil => simp at h
  | cons hd tl ih =>
    obtain ⟨k0, v0⟩ := hd
    rw [keysOf_cons, List.nodup_cons] at hnd
    rcases List.mem_cons.mp h with h | h
    · obtain ⟨rfl, rfl⟩ := Prod.mk.injEq .. ▸ h
      simp
    · have hk : k0 ≠ k := by
        rintro rfl
        exact hnd.1 (List.mem_map.mpr ⟨(k0, v), h, rfl⟩)
      rw [alookup_cons, if_neg hk]
      exact ih hnd.2 h

theorem keysOf_ainsert_mem {α : Type} (l : List (Nat × α)) (k : Nat) (v : α)
    (h : k ∈ keysOf l) : keysOf (ainsert k v l) = keysOf l := by
  induction l with
  | nil => simp at h
  | cons hd tl ih =>
    obtain ⟨k0, v0⟩ := hd
    by_cases h0 : k0 = k
    · subst h0
      simp
    · rw [keysOf_cons, List.mem_cons] at h
      rcases h with h | h
      · exact absurd h.symm h0
      · simp [h0, ih h]

theorem keysOf_ainsert_not_mem {α : Type} (l : List (Nat × α)) (k : Nat) (v : α)
    (h : k ∉ keysOf l) : keysOf (ainsert k v l) = keysOf l ++ [k] := by
  induction l with
  | nil => simp
  | cons hd tl ih =>
    obtain ⟨k0, v0⟩ := hd
    rw [keysOf_cons, List.mem_cons] at h
    push_neg at h
    simp [Ne.symm h.1, ih h.2]

theorem nodup_keysOf_ainsert {α : Type} (l : List (Nat × α)) (k : Nat) (v : α)
    (h : (keysOf l).Nodup) : (keysOf (ainsert k v l)).Nodup := by
  by_cases hk : k ∈ keysOf l
  · rw [keysOf_ainsert_mem l k v hk]; exact h
  · rw [keysOf_ainsert_not_mem l k v hk]
    simp [List.nodup_append, h, hk]

theorem mem_ainsert {α : Type} {l : List (Nat × α)} {k : Nat} {v : α}
    {p : Nat × α} (hnd : (keysOf l).Nodup) :
    p ∈ ainsert k v l ↔ p = (k, v) ∨ (p ∈ l ∧ p.1 ≠ k) := by
  induction l with
  | nil =>
    constructor
    · intro h
      rw [ainsert_nil] at h
      exact Or.inl (List.mem_singleton.mp h)
    · rintro (rfl | ⟨h, _⟩)
      · simp
      · simp at h
  | cons hd tl ih =>
    obtain ⟨k0, v0⟩ := hd
    rw [keysOf_cons, List.nodup_cons] at hnd
    by_cases h0 : k0 = k
    · subst h0
      rw [ainsert_cons, if_pos rfl]
      constructor
      · intro h
        rcases List.mem_cons.mp h with rfl | hp
        · exact Or.inl rfl
        · refine Or.inr ⟨List.mem_cons_of_mem _ hp, ?_⟩
          rintro rfl
          exact hnd.1 (List.mem_map.mpr ⟨p, hp, rfl⟩)
      · rintro (rfl | ⟨hp, hne⟩)
        · exact List.mem_cons_self _ _
        · rcases List.mem_cons.mp hp with rfl | hp
          · exact absurd rfl hne
          · exact List.mem_cons_of_mem _ hp
    · rw [ainsert_cons, if_neg h0]
      constructor
      · intro h
        rcases List.mem_cons.mp h with rfl | hp
        · exact Or.inr ⟨List.mem_cons_self _ _, h0⟩
        · rcases (ih hnd.2).mp hp with rfl | ⟨hp, hne⟩
          · exact Or.inl rfl
          · exact Or.inr ⟨List.mem_cons_of_mem _ hp, hne⟩
      · rintro (rfl | ⟨hp, hne⟩)
        · exact List.mem_cons_of_mem _ ((ih hnd.2).mpr (Or.inl rfl))
        · rcases List.mem_cons.mp hp with rfl | hp
          · exact List.mem_cons_self _ _
          · exact List.mem_cons_of_mem _ ((ih hnd.2).mpr (Or.inr ⟨hp, hne⟩))

theorem mem_aerase {α : Type} {l : List (Nat × α)} {k : Nat} {p : Nat × α}
    (h : p ∈ aerase k l) : p ∈ l := by
  induction l with
  | nil => simp at h
  | cons hd tl ih =>
    obtain ⟨k0, v0⟩ := hd
    by_cases h0 : k0 = k
    · subst h0
      rw [aerase_cons, if_pos rfl] at h
      exact List.mem_cons_of_mem _ h
    · rw [aerase_cons, if_neg h0] at h
      rcases List.mem_cons.mp h with rfl | h
      · exact List.mem_cons_self _ _
      · exact List.mem_cons_of_mem _ (ih h)

theorem keysOf_aerase_sublist {α : Type} (l : List (Nat × α)) (k : Nat) :
    (keysOf (aerase k l)).Sublist (keysOf l) := by
  induction l with
  | nil => simp
  | cons hd tl ih =>
    obtain ⟨k0, v0⟩ := hd
    by_cases h0 : k0 = k
    · subst h0
      rw [aerase_cons, if_pos rfl, keysOf_cons]
      exact List.sublist_cons_self _ _
    · rw [aerase_cons, if_neg h0, keysOf_cons, keysOf_cons]
      exact List.Sublist.cons₂ _ ih

theorem nodup_keysOf_aerase {α : Type} (l : List (Nat × α)) (k : Nat)
    (h : (keysOf l).Nodup) : (keysOf (aerase k l)).Nodup :=
  (keysOf_aerase_sublist l k).nodup h

theorem not_mem_keysOf_aerase {α : Type} (l : List (Nat × α)) (k : Nat)
    (h : (keysOf l).Nodup) : k ∉ keysOf (aerase k l) := by
  induction l with
  | nil => simp
  | cons hd tl ih =>
    obtain ⟨k0, v0⟩ := hd
    rw [keysOf_cons, List.nodup_cons] at h
    by_cases h0 : k0 = k
    · subst h0
      rw [aerase_cons, if_pos rfl]
      intro hmem
      exact h.1 hmem
    · rw [aerase_cons, if_neg h0, keysOf_cons, List.mem_cons]
      push_neg
      exact ⟨Ne.symm h0, ih h.2⟩

/-! ### Basic lemmas: the despawn fixup scan `repoint` -/

@[simp] theorem repoint_nil (tid target nr : Nat) :
    repoint tid target nr [] = [] := rfl

@[simp] theorem repoint_cons (tid target nr id t r : Nat)
    (rest : List (Nat × TypeId × Nat)) :
    repoint tid target nr ((id, t, r) :: rest) =
      if t = tid ∧ r = target then (id, t, nr) :: rest
      else (id, t, r) :: repoint tid target nr rest := rfl

theorem keysOf_repoint (tid target nr : Nat) (l : List (Nat × TypeId × Nat)) :
    keysOf (repoint tid target nr l) = keysOf l := by
  induction l with
  | nil => simp
  | cons hd tl ih =>
    obtain ⟨id, t, r⟩ := hd
    by_cases hc : t = tid ∧ r = target
    · simp [hc]
    · simp [hc, ih]

theorem alookup_repoint_none {l : List (Nat × TypeId × Nat)} {id : Nat}
    (tid target nr : Nat) (h : alookup l id = none) :
    alookup (repoint tid target nr l) id = none := by
  rw [alookup_eq_none_iff] at h ⊢
  rwa [keysOf_repoint]

theorem alookup_repoint_of_ne {l : List (Nat × TypeId × Nat)} {id : Nat}
    {v : TypeId × Nat} (tid target nr : Nat)
    (h : alookup l id = some v) (hv : v ≠ (tid, target)) :
    alookup (repoint tid target nr l) id = some v := by
  induction l with
  | nil => simp at h
  | cons hd tl ih =>
    obtain ⟨k0, t0, r0⟩ := hd
    by_cases hc : t0 = tid ∧ r0 = target
    · rw [repoint_cons, if_pos hc]
      by_cases hk : k0 = id
      · subst hk
        rw [alookup_cons, if_pos rfl] at h
        obtain rfl := Option.some.inj h
        exact absurd (Prod.ext hc.1 hc.2) hv
      · rw [alookup_cons, if_neg hk] at h ⊢
        exact h
    · rw [repoint_cons, if_neg hc]
      by_cases hk : k0 = id
      · subst hk
        rw [alookup_cons, if_pos rfl] at h ⊢
        exact h
      · rw [alookup_cons, if_neg hk] at h ⊢
        exact ih h

theorem alookup_repoint_self {l : List (Nat × TypeId × Nat)} {id : Nat}
    (tid target nr : Nat)
    (huniq : ∀ q ∈ l, q.2 = (tid, target) → q.1 = id)
    (h : alookup l id = some (tid, target)) :
    alookup (repoint tid target nr l) id = some (tid, nr) := by
  induction l with
  | nil => simp at h
  | cons hd tl ih =>
    obtain ⟨k0, t0, r0⟩ := hd
    by_cases hk : k0 = id
    · subst hk
      rw [alookup_cons, if_pos rfl] at h
      obtain heq := Option.some.inj h
      have ht0 : t0 = tid := congrArg Prod.fst heq
      have hr0 : r0 = target := congrArg Prod.snd heq
      rw [repoint_cons, if_pos ⟨ht0, hr0⟩, alookup_cons, if_pos rfl, ht0]
    · rw [alookup_cons, if_neg hk] at h
      have hc : ¬(t0 = tid ∧ r0 = target) := by
        rintro ⟨rfl, rfl⟩
        exact hk (huniq (k0, t0, r0) (List.mem_cons_self _ _) rfl)
      rw [repoint_cons, if_neg hc, alookup_cons, if_neg hk]
      exact ih (fun q hq => huniq q (List.mem_cons_of_mem _ hq)) h

theorem mem_repoint_strong {l : List (Nat × TypeId × Nat)} {tid target nr : Nat}
    (hnd : (keysOf l).Nodup)
    (huniq : ∀ p ∈ l, ∀ q ∈ l, p.2 = q.2 → p = q) :
    ∀ p ∈ repoint tid target nr l,
      (p ∈ l ∧ p.2 ≠ (tid, target)) ∨
      (p.2 = (tid, nr) ∧ (p.1, (tid, target)) ∈ l) := by
  induction l with
  | nil => simp
  | cons hd tl ih =>
    obtain ⟨k0, t0, r0⟩ := hd
    rw [keysOf_cons, List.nodup_cons] at hnd
    intro p hp
    by_cases hc : t0 = tid ∧ r0 = target
    · rw [repoint_cons, if_pos hc] at hp
      obtain ⟨rfl, rfl⟩ := hc
      rcases List.mem_cons.mp hp with rfl | hp
      · exact Or.inr ⟨rfl, List.mem_cons_self _ _⟩
      · left
        refine ⟨List.mem_cons_of_mem _ hp, ?_⟩
        intro hval
        have := huniq p (List.mem_cons_of_mem _ hp) (k0, t0, r0)
          (List.mem_cons_self _ _) hval
        subst this
        exact hnd.1 (List.mem_map.mpr ⟨(k0, t0, r0), hp, rfl⟩)
    · rw [repoint_cons, if_neg hc] at hp
      rcases List.mem_cons.mp hp with rfl | hp
      · left
        refine ⟨List.mem_cons_self _ _, ?_⟩
        intro hval
        exact hc ⟨congrArg Prod.fst hval, congrArg Prod.snd hval⟩
      · have ih' := ih hnd.2
          (fun a ha b hb => huniq a (List.mem_cons_of_mem _ ha) b (List.mem_cons_of_mem _ hb))
          p hp
        rcases ih' with ⟨hmem, hne⟩ | ⟨hval, hmem⟩
        · exact Or.inl ⟨List.mem_cons_of_mem _ hmem, hne⟩
        · exact Or.inr ⟨hval, List.mem_cons_of_mem _ hmem⟩

/-! ### Table well-formedness

The structural invariant a `Table` satisfies at all times in the source:
its column tags are its construction schema, each column's `VecAny` is
bound to its slot's tag, and every column holds exactly `length` rows. -/

structure TableWF (schema : List TypeId) (t : Table) : Prop where
  tags : t.columns.map Prod.fst = schema
  tys : ∀ p ∈ t.columns, p.2.data.ty = p.1
  lens : ∀ p ∈ t.columns, p.2.data.dataList.length = t.length

theorem TableWF_new (schema : List TypeId) : TableWF schema (Table.new schema) := by
  refine ⟨?_, ?_, ?_⟩
  · show (schema.map fun ty => (ty, Column.new ty)).map Prod.fst = schema
    rw [List.map_map]
    show schema.map id = schema
    exact List.map_id schema
  · intro p hp
    simp only [Table.new, List.mem_map] at hp
    obtain ⟨ty, _, rfl⟩ := hp
    rfl
  · intro p hp
    simp only [Table.new, List.mem_map] at hp
    obtain ⟨ty, _, rfl⟩ := hp
    rfl

theorem TableWF_new_unsaved (schema : List TypeId) :
    TableWF schema (Table.new_unsaved schema) := by
  refine ⟨?_, ?_, ?_⟩
  · show (schema.map fun ty => (ty, Column.new ty)).map Prod.fst = schema
    rw [List.map_map]
    show schema.map id = schema
    exact List.map_id schema
  · intro p hp
    simp only [Table.new_unsaved, List.mem_map] at hp
    obtain ⟨ty, _, rfl⟩ := hp
    rfl
  · intro p hp
    simp only [Table.new_unsaved, List.mem_map] at hp
    obtain ⟨ty, _, rfl⟩ := hp
    rfl

theorem downcast_ref_of_ty {v : VecAny} {T : TypeId} (h : v.ty = T) :
    v.downcast_ref T = some v.dataList := by
  simp [VecAny.downcast_ref, h]

/-- Under the tag invariant, `Table::column` is the first matching slot's
data (the panic branch is unreachable). -/
theorem column_eq {t : Table} (T : TypeId)
    (hty : ∀ p ∈ t.columns, p.2.data.ty = p.1) :
    t.column T = (t.columns.find? (fun c => c.1 == T)).map
      (fun c => c.2.data.dataList) := by
  unfold Table.column
  cases hf : t.columns.find? (fun c => c.1 == T) with
  | none => simp
  | some c =>
    have hc : c.1 = T := by simpa using List.find?_some hf
    have hmem := List.mem_of_find?_eq_some hf
    rw [Option.map_some', Option.some_bind,
      downcast_ref_of_ty (by rw [hty c hmem, hc])]

theorem column_length {schema : List TypeId} {t : Table} {T : TypeId}
    {col : List Nat} (hwf : TableWF schema t) (h : t.column T = some col) :
    col.length = t.length := by
  rw [column_eq T hwf.tys] at h
  cases hf : t.columns.find? (fun c => c.1 == T) with
  | none => rw [hf] at h; simp at h
  | some c =>
    rw [hf] at h
    obtain rfl := Option.some.inj h
    exact hwf.lens c (List.mem_of_find?_eq_some hf)

theorem column_isSome_iff_has_column {t : Table} (T : TypeId)
    (hty : ∀ p ∈ t.columns, p.2.data.ty = p.1) :
    (t.column T).isSome = t.has_column T := by
  rw [column_eq T hty]
  unfold Table.has_column
  cases hf : t.columns.find? (fun c => c.1 == T) with
  | none =>
    have := List.find?_eq_none.mp hf
    simp only [Option.map_none', Option.isSome_none]
    rcases hh : t.columns.any (fun c => c.1 == T) with _ | _
    · rfl
    · obtain ⟨c, hc, hcT⟩ := List.any_eq_true.mp hh
      exact absurd hcT (by simpa using this c hc)
  | some c =>
    have hmem := List.mem_of_find?_eq_some hf
    have hcT := List.find?_some hf
    simp only [Option.map_some', Option.isSome_some]
    exact (List.any_eq_true.mpr ⟨c, hmem, hcT⟩).symm

/-- `find?` on the first component commutes with mapping the second. -/
theorem find?_fst_map (l : List (TypeId × Column)) (T : TypeId)
    (f : TypeId × Column → Column) :
    (l.map (fun p => (p.1, f p))).find? (fun c => c.1 == T) =
      (l.find? (fun c => c.1 == T)).map (fun p => (p.1, f p)) := by
  induction l with
  | nil => simp
  | cons hd tl ih =>
    by_cases h : hd.1 = T
    · simp [List.find?_cons, h]
    · simp only [List.map_cons, List.find?_cons]
      have hb : (hd.1 == T) = false := by simpa using h
      simp [hb, ih]

/-- Structural form of the derived remove loop when the schema equals the
tags and every column is bound to its slot tag: each column is
swap-removed. -/
theorem removeFields_eq {cols : List (TypeId × Column)} {schema : List TypeId}
    (row : Nat) (htags : cols.map Prod.fst = schema)
    (hty : ∀ p ∈ cols, p.2.data.ty = p.1) :
    removeFields cols schema row =
      cols.map (fun p =>
        (p.1, ⟨⟨some (swapRemove p.2.data.dataList row), p.2.data.ty⟩⟩)) := by
  induction cols generalizing schema with
  | nil =>
    subst htags
    simp [removeFields]
  | cons hd tl ih =>
    obtain ⟨ty, col⟩ := hd
    subst htags
    have hty0 : col.data.ty = ty := hty (ty, col) (List.mem_cons_self _ _)
    simp only [List.map_cons, removeFields]
    have htail := ih rfl (fun p hp => hty p (List.mem_cons_of_mem _ hp))
    have hhead : ({ data := col.data.run ty fun data => swapRemove data row } : Column) =
        ⟨⟨some (swapRemove col.data.dataList row), col.data.ty⟩⟩ := by
      simp only [VecAny.run]
      rw [if_neg (not_not_intro hty0)]
    rw [hhead, htail]

/-- Removing a row maps every successfully resolved column to its
swap-removed contents. -/
theorem column_remove {schema : List TypeId} {t : Table} (hwf : TableWF schema t)
    (row : Nat) (T : TypeId) :
    (Archetype.remove schema t row).column T =
      (t.column T).map (fun l => swapRemove l row) := by
  have hrm : (Archetype.remove schema t row).columns =
      t.columns.map (fun p =>
        (p.1, ⟨⟨some (swapRemove p.2.data.dataList row), p.2.data.ty⟩⟩)) := by
    unfold Archetype.remove
    exact removeFields_eq row hwf.tags hwf.tys
  have hty' : ∀ p ∈ (Archetype.remove schema t row).columns, p.2.data.ty = p.1 := by
    rw [hrm]
    intro p hp
    obtain ⟨q, hq, rfl⟩ := List.mem_map.mp hp
    exact hwf.tys q hq
  rw [column_eq T hty', column_eq T hwf.tys, hrm, find?_fst_map]
  cases hf : t.columns.find? (fun c => c.1 == T) with
  | none => simp
  | some c => simp [VecAny.dataList]

theorem TableWF_remove {schema : List TypeId} {t : Table} (hwf : TableWF schema t)
    (row : Nat) : TableWF schema (Archetype.remove schema t row) := by
  have hrm : (Archetype.remove schema t row).columns =
      t.columns.map (fun p =>
        (p.1, ⟨⟨some (swapRemove p.2.data.dataList row), p.2.data.ty⟩⟩)) := by
    unfold Archetype.remove
    exact removeFields_eq row hwf.tags hwf.tys
  refine ⟨?_, ?_, ?_⟩
  · rw [hrm, List.map_map]
    have : (Prod.fst ∘ fun p : TypeId × Column =>
        (p.1, (⟨⟨some (swapRemove p.2.data.dataList row), p.2.data.ty⟩⟩ : Column))) =
        Prod.fst := by
      funext p
      rfl
    rw [this, hwf.tags]
  · rw [hrm]
    intro p hp
    obtain ⟨q, hq, rfl⟩ := List.mem_map.mp hp
    exact hwf.tys q hq
  · rw [hrm]
    intro p hp
    obtain ⟨q, hq, rfl⟩ := List.mem_map.mp hp
    show (swapRemove q.2.data.dataList row).length = (Archetype.remove schema t row).length
    rw [swapRemove_length, hwf.lens q hq]
    rfl

/-! ### The derived add loop -/

theorem pushFields_fields {cols : List (TypeId × Column)} {schema : List TypeId}
    {vals : List Nat} {n : Nat}
    (htags : cols.map Prod.fst = schema)
    (hty : ∀ p ∈ cols, p.2.data.ty = p.1)
    (hlens : ∀ p ∈ cols, p.2.data.dataList.length = n)
    (hlen : vals.length = schema.length) :
    (pushFields cols schema vals).map Prod.fst = schema ∧
    (∀ p ∈ pushFields cols schema vals, p.2.data.ty = p.1) ∧
    (∀ p ∈ pushFields cols schema vals, p.2.data.dataList.length = n + 1) := by
  induction cols generalizing schema vals with
  | nil =>
    subst htags
    simp only [List.map_nil, List.length_nil, List.length_eq_zero] at hlen
    subst hlen
    exact ⟨rfl, fun p hp => absurd hp (List.not_mem_nil p),
      fun p hp => absurd hp (List.not_mem_nil p)⟩
  | cons hd tl ih =>
    obtain ⟨ty, col⟩ := hd
    subst htags
    have hty0 : col.data.ty = ty := hty (ty, col) (List.mem_cons_self _ _)
    have hlen0 : col.data.dataList.length = n := hlens (ty, col) (List.mem_cons_self _ _)
    cases vals with
    | nil => simp at hlen
    | cons v vs =>
      simp only [List.length_cons, List.map_cons, Nat.succ.injEq] at hlen
      have hpush : ({ data := col.data.push ty v } : Column) =
          ⟨⟨some (col.data.dataList ++ [v]), col.data.ty⟩⟩ := by
        simp only [VecAny.push, VecAny.run]
        rw [if_neg (not_not_intro hty0)]
      obtain ⟨ih1, ih2, ih3⟩ := ih rfl
        (fun p hp => hty p (List.mem_cons_of_mem _ hp))
        (fun p hp => hlens p (List.mem_cons_of_mem _ hp)) hlen
      refine ⟨?_, ?_, ?_⟩
      · simp only [pushFields, hpush, List.map_cons, ih1]
      · simp only [pushFields, hpush]
        intro p hp
        rcases List.mem_cons.mp hp with rfl | hp
        · exact hty0
        · exact ih2 p hp
      · simp only [pushFields, hpush]
        intro p hp
        rcases List.mem_cons.mp hp with rfl | hp
        · show (col.data.dataList ++ [v]).length = n + 1
          simp [hlen0]
        · exact ih3 p hp

theorem TableWF_add {schema : List TypeId} {t : Table} {vals : List Nat}
    (hwf : TableWF schema t) (hlen : vals.length = schema.length) :
    TableWF schema ((Archetype.add schema vals t).1) ∧
    ((Archetype.add schema vals t).1).length = t.length + 1 := by
  obtain ⟨h1, h2, h3⟩ := pushFields_fields hwf.tags hwf.tys hwf.lens hlen
  exact ⟨⟨h1, h2, h3⟩, rfl⟩

theorem getFields_length {cols : List (TypeId × Column)} {schema : List TypeId}
    {row : Nat} {vals : List Nat} (h : getFields cols schema row = some vals) :
    vals.length = schema.length := by
  induction schema generalizing cols vals with
  | nil =>
    have : getFields cols [] row = some [] := by
      cases cols <;> rfl
    rw [this] at h
    obtain rfl := Option.some.inj h
    rfl
  | cons fty ftys ih =>
    cases cols with
    | nil => simp [getFields] at h
    | cons hd tl =>
      obtain ⟨ty, col⟩ := hd
      simp only [getFields, Option.bind_eq_bind, bind, Option.bind] at h
      cases hv : col.get fty row with
      | none => rw [hv] at h; simp at h
      | some v =>
        rw [hv] at h
        cases hvs : getFields tl ftys row with
        | none => rw [hvs] at h; simp at h
        | some vs =>
          rw [hvs] at h
          obtain rfl := Option.some.inj h
          simp [ih hvs]

theorem getFields_some_of_wf {cols : List (TypeId × Column)} {schema : List TypeId}
    {row n : Nat} (htags : cols.map Prod.fst = schema)
    (hty : ∀ p ∈ cols, p.2.data.ty = p.1)
    (hlens : ∀ p ∈ cols, p.2.data.dataList.length = n) (hrow : row < n) :
    ∃ vals, getFields cols schema row = some vals ∧ vals.length = schema.length := by
  induction cols generalizing schema with
  | nil =>
    subst htags
    exact ⟨[], rfl, rfl⟩
  | cons hd tl ih =>
    obtain ⟨ty, col⟩ := hd
    subst htags
    have hty0 : col.data.ty = ty := hty (ty, col) (List.mem_cons_self _ _)
    have hlen0 : col.data.dataList.length = n := hlens (ty, col) (List.mem_cons_self _ _)
    obtain ⟨vs, hvs, hlvs⟩ := ih rfl
      (fun p hp => hty p (List.mem_cons_of_mem _ hp))
      (fun p hp => hlens p (List.mem_cons_of_mem _ hp))
    obtain ⟨v0, hv0⟩ : ∃ a, col.data.dataList[row]? = some a := by
      rw [List.getElem?_eq_getElem (by omega)]
      exact ⟨_, rfl⟩
    have hget : col.get ty row = some v0 := by
      show (col.data.downcast_ref ty).bind (fun l => l[row]?) = _
      rw [downcast_ref_of_ty hty0, Option.some_bind]
      exact hv0
    refine ⟨v0 :: vs, ?_, by simp [hlvs]⟩
    simp only [getFields, hget, hvs, Option.bind_eq_bind, Option.some_bind]
    rfl

theorem getFields_pushFields_last {cols : List (TypeId × Column)}
    {schema : List TypeId} {vals : List Nat} {n : Nat}
    (htags : cols.map Prod.fst = schema)
    (hty : ∀ p ∈ cols, p.2.data.ty = p.1)
    (hlens : ∀ p ∈ cols, p.2.data.dataList.length = n)
    (hlen : vals.length = schema.length) :
    getFields (pushFields cols schema vals) schema n = some vals := by
  induction cols generalizing schema vals with
  | nil =>
    subst htags
    simp only [List.map_nil, List.length_nil, List.length_eq_zero] at hlen
    subst hlen
    rfl
  | cons hd tl ih =>
    obtain ⟨ty, col⟩ := hd
    subst htags
    have hty0 : col.data.ty = ty := hty (ty, col) (List.mem_cons_self _ _)
    have hlen0 : col.data.dataList.length = n := hlens (ty, col) (List.mem_cons_self _ _)
    cases vals with
    | nil => simp at hlen
    | cons v vs =>
      simp only [List.length_cons, List.map_cons, Nat.succ.injEq] at hlen
      have hpush : ({ data := col.data.push ty v } : Column) =
          ⟨⟨some (col.data.dataList ++ [v]), col.data.ty⟩⟩ := by
        simp only [VecAny.push, VecAny.run]
        rw [if_neg (not_not_intro hty0)]
      have hdc : (VecAny.mk (some (col.data.dataList ++ [v])) col.data.ty).downcast_ref ty =
          some (col.data.dataList ++ [v]) := downcast_ref_of_ty hty0
      have hget : (⟨⟨some (col.data.dataList ++ [v]), col.data.ty⟩⟩ : Column).get ty n =
          some v := by
        show ((VecAny.mk (some (col.data.dataList ++ [v])) col.data.ty).downcast_ref ty).bind
          (fun l => l[n]?) = some v
        rw [hdc, Option.some_bind, ← hlen0]
        exact List.getElem?_concat_length _ _
      have htail := ih rfl (fun p hp => hty p (List.mem_cons_of_mem _ hp))
        (fun p hp => hlens p (List.mem_cons_of_mem _ hp)) hlen
      simp only [pushFields, hpush, getFields, hget, htail,
        Option.bind_eq_bind, Option.some_bind]
      rfl

theorem getFields_pushFields_lt {cols : List (TypeId × Column)}
    {schema : List TypeId} {vals : List Nat} {n row : Nat}
    (htags : cols.map Prod.fst = schema)
    (hty : ∀ p ∈ cols, p.2.data.ty = p.1)
    (hlens : ∀ p ∈ cols, p.2.data.dataList.length = n)
    (hlen : vals.length = schema.length) (hrow : row < n) :
    getFields (pushFields cols schema vals) schema row =
      getFields cols schema row := by
  induction cols generalizing schema vals with
  | nil =>
    subst htags
    simp only [List.map_nil, List.length_nil, List.length_eq_zero] at hlen
    subst hlen
    rfl
  | cons hd tl ih =>
    obtain ⟨ty, col⟩ := hd
    subst htags
    have hty0 : col.data.ty = ty := hty (ty, col) (List.mem_cons_self _ _)
    have hlen0 : col.data.dataList.length = n := hlens (ty, col) (List.mem_cons_self _ _)
    cases vals with
    | nil => simp at hlen
    | cons v vs =>
      simp only [List.length_cons, List.map_cons, Nat.succ.injEq] at hlen
      have hpush : ({ data := col.data.push ty v } : Column) =
          ⟨⟨some (col.data.dataList ++ [v]), col.data.ty⟩⟩ := by
        simp only [VecAny.push, VecAny.run]
        rw [if_neg (not_not_intro hty0)]
      have hdc : (VecAny.mk (some (col.data.dataList ++ [v])) col.data.ty).downcast_ref ty =
          some (col.data.dataList ++ [v]) := downcast_ref_of_ty hty0
      have hget : (⟨⟨some (col.data.dataList ++ [v]), col.data.ty⟩⟩ : Column).get ty row =
          col.get ty row := by
        show ((VecAny.mk (some (col.data.dataList ++ [v])) col.data.ty).downcast_ref ty).bind
            (fun l => l[row]?) =
          (col.data.downcast_ref ty).bind (fun l => l[row]?)
        rw [hdc, downcast_ref_of_ty hty0, Option.some_bind, Option.some_bind,
          List.getElem?_append, if_pos (by omega)]
      have htail := ih rfl (fun p hp => hty p (List.mem_cons_of_mem _ hp))
        (fun p hp => hlens p (List.mem_cons_of_mem _ hp)) hlen
      simp only [pushFields, hpush, getFields, hget, htail]

/-! ### World well-formedness

The invariant maintained by registration, spawn and despawn: the
identity map and the table map have distinct keys, every live id is below
the id counter, every mapping points at a registered table and a row in
bounds, no two ids share a `(table, row)` slot, and every table satisfies
its structural invariant for its registered schema. -/

structure WorldWF (schemaOf : TypeId → List TypeId) (w : World) : Prop where
  entNodup : (keysOf w.entities).Nodup
  archNodup : (keysOf w.archetypes).Nodup
  idsLt : ∀ p ∈ w.entities, p.1 < w.next_id
  valid : ∀ p ∈ w.entities, ∃ t, alookup w.archetypes p.2.1 = some t ∧ p.2.2 < t.length
  inj : ∀ p ∈ w.entities, ∀ q ∈ w.entities, p.2 = q.2 → p = q
  tablesWF : ∀ p ∈ w.archetypes, TableWF (schemaOf p.1) p.2

theorem WorldWF_empty (schemaOf : TypeId → List TypeId) :
    WorldWF schemaOf World.empty := by
  refine ⟨?_, ?_, ?_, ?_, ?_, ?_⟩ <;> simp [World.empty]

theorem WorldWF_register {schemaOf : TypeId → List TypeId} {w : World}
    (tid : TypeId) (hwf : WorldWF schemaOf w) (hent : w.entities = []) :
    WorldWF schemaOf (w.register schemaOf tid) ∧
    (w.register schemaOf tid).entities = [] := by
  refine ⟨⟨?_, ?_, ?_, ?_, ?_, ?_⟩, hent⟩
  · show (keysOf w.entities).Nodup
    exact hwf.entNodup
  · exact nodup_keysOf_ainsert _ _ _ hwf.archNodup
  · intro p hp
    rw [show (w.register schemaOf tid).entities = w.entities from rfl, hent] at hp
    simp at hp
  · intro p hp
    rw [show (w.register schemaOf tid).entities = w.entities from rfl, hent] at hp
    simp at hp
  · intro p hp
    rw [show (w.register schemaOf tid).entities = w.entities from rfl, hent] at hp
    simp at hp
  · intro p hp
    rcases (mem_ainsert hwf.archNodup).mp hp with rfl | ⟨hp, _⟩
    · exact TableWF_new _
    · exact hwf.tablesWF p hp

theorem WorldWF_register_unsaved {schemaOf : TypeId → List TypeId} {w : World}
    (tid : TypeId) (hwf : WorldWF schemaOf w) (hent : w.entities = []) :
    WorldWF schemaOf (w.register_unsaved schemaOf tid) ∧
    (w.register_unsaved schemaOf tid).entities = [] := by
  refine ⟨⟨?_, ?_, ?_, ?_, ?_, ?_⟩, hent⟩
  · show (keysOf w.entities).Nodup
    exact hwf.entNodup
  · exact nodup_keysOf_ainsert _ _ _ hwf.archNodup
  · intro p hp
    rw [show (w.register_unsaved schemaOf tid).entities = w.entities from rfl, hent] at hp
    simp at hp
  · intro p hp
    rw [show (w.register_unsaved schemaOf tid).entities = w.entities from rfl, hent] at hp
    simp at hp
  · intro p hp
    rw [show (w.register_unsaved schemaOf tid).entities = w.entities from rfl, hent] at hp
    simp at hp
  · intro p hp
    rcases (mem_ainsert hwf.archNodup).mp hp with rfl | ⟨hp, _⟩
    · exact TableWF_new_unsaved _
    · exact hwf.tablesWF p hp

theorem next_id_fresh {schemaOf : TypeId → List TypeId} {w : World}
    (hwf : WorldWF schemaOf w) : w.next_id ∉ keysOf w.entities := by
  intro hmem
  obtain ⟨p, hp, hfst⟩ := List.mem_map.mp hmem
  have := hwf.idsLt p hp
  omega

theorem WorldWF_spawn {schemaOf : TypeId → List TypeId} {w w1 : World}
    {tid : TypeId} {vals : List Nat} {id : Nat}
    (hwf : WorldWF schemaOf w) (hlen : vals.length = (schemaOf tid).length)
    (hsp : w.spawn schemaOf tid vals = some (w1, id)) : WorldWF schemaOf w1 := by
  unfold World.spawn at hsp
  cases htab : alookup w.archetypes tid with
  | none => rw [htab] at hsp; cases hsp
  | some table =>
    rw [htab] at hsp
    obtain ⟨rfl, rfl⟩ : ({ w with
        archetypes := ainsert tid (Archetype.add (schemaOf tid) vals table).1 w.archetypes,
        entities := ainsert w.next_id
          (tid, (Archetype.add (schemaOf tid) vals table).1.length - 1) w.entities,
        next_id := w.next_id + 1 }, w.next_id) = (w1, id) := Option.some.inj hsp
    have htblwf : TableWF (schemaOf tid) table := hwf.tablesWF (tid, table)
      (alookup_eq_some_mem htab)
    obtain ⟨hT1, hT1len⟩ := TableWF_add htblwf hlen
    set table1 := (Archetype.add (schemaOf tid) vals table).1 with htable1
    have hrow1 : table1.length - 1 = table.length := by omega
    refine ⟨?_, ?_, ?_, ?_, ?_, ?_⟩
    · exact nodup_keysOf_ainsert _ _ _ hwf.entNodup
    · exact nodup_keysOf_ainsert _ _ _ hwf.archNodup
    · intro p hp
      rcases (mem_ainsert hwf.entNodup).mp hp with rfl | ⟨hp, _⟩
      · show w.next_id < w.next_id + 1
        omega
      · have := hwf.idsLt p hp
        show p.1 < w.next_id + 1
        omega
    · intro p hp
      rcases (mem_ainsert hwf.entNodup).mp hp with rfl | ⟨hp, _⟩
      · refine ⟨table1, ?_, ?_⟩
        · exact alookup_ainsert_self _ _ _
        · show table1.length - 1 < table1.length
          omega
      · obtain ⟨t, ht, hrow⟩ := hwf.valid p hp
        by_cases htid : p.2.1 = tid
        · rw [htid] at ht
          obtain rfl := Option.some.inj (htab ▸ ht)
          refine ⟨table1, ?_, ?_⟩
          · rw [htid]
            exact alookup_ainsert_self _ _ _
          · omega
        · exact ⟨t, by rw [alookup_ainsert_ne _ _ _ _ htid]; exact ht, hrow⟩
    · intro p hp q hq hval
      rcases (mem_ainsert hwf.entNodup).mp hp with rfl | ⟨hp, hpne⟩ <;>
        rcases (mem_ainsert hwf.entNodup).mp hq with rfl | ⟨hq, hqne⟩
      · rfl
      · exfalso
        obtain ⟨t, ht, hrow⟩ := hwf.valid q hq
        rw [← hval] at ht hrow
        simp only at ht hrow
        obtain rfl := Option.some.inj (htab ▸ ht)
        omega
      · exfalso
        obtain ⟨t, ht, hrow⟩ := hwf.valid p hp
        rw [hval] at ht hrow
        simp only at ht hrow
        obtain rfl := Option.some.inj (htab ▸ ht)
        omega
      · exact hwf.inj p hp q hq hval
    · intro p hp
      rcases (mem_ainsert hwf.archNodup).mp hp with rfl | ⟨hp, _⟩
      · exact hT1
      · exact hwf.tablesWF p hp

/-! ### Despawn: unfolding equations -/

theorem despawn_eq_none {schemaOf : TypeId → List TypeId} {w : World} {T id : Nat}
    (h : alookup w.entities id = none) : w.despawn schemaOf T id = .ok w := by
  unfold World.despawn
  rw [h]

theorem despawn_eq_mismatch {schemaOf : TypeId → List TypeId} {w : World}
    {T id tid row : Nat} (h : alookup w.entities id = some (tid, row)) (hne : tid ≠ T) :
    w.despawn schemaOf T id = .error { w with entities := aerase id w.entities } := by
  unfold World.despawn
  rw [h]
  simp only [if_pos hne]

theorem despawn_eq_noTable {schemaOf : TypeId → List TypeId} {w : World}
    {T id tid row : Nat} (h : alookup w.entities id = some (tid, row)) (heq : tid = T)
    (ht : alookup w.archetypes tid = none) :
    w.despawn schemaOf T id = .ok { w with entities := aerase id w.entities } := by
  subst heq
  simp only [World.despawn, h, ht]
  rw [if_neg (not_not_intro rfl)]

theorem despawn_eq_ok {schemaOf : TypeId → List TypeId} {w : World}
    {T id tid row : Nat} {table : Table}
    (h : alookup w.entities id = some (tid, row)) (heq : tid = T)
    (ht : alookup w.archetypes tid = some table) :
    w.despawn schemaOf T id = .ok { w with
      entities := repoint tid (Archetype.remove (schemaOf T) table row).length row
        (aerase id w.entities),
      archetypes := ainsert tid (Archetype.remove (schemaOf T) table row) w.archetypes } := by
  subst heq
  simp only [World.despawn, h, ht]
  rw [if_neg (not_not_intro rfl)]

/-! ### Despawn preserves well-formedness -/

theorem WorldWF_despawn {schemaOf : TypeId → List TypeId} {w w1 : World}
    {T id : Nat} (hwf : WorldWF schemaOf w)
    (hd : w.despawn schemaOf T id = .ok w1) : WorldWF schemaOf w1 := by
  cases hlook : alookup w.entities id with
  | none =>
    rw [despawn_eq_none hlook] at hd
    obtain rfl := Except.ok.inj hd
    exact hwf
  | some v =>
    obtain ⟨tid, row⟩ := v
    by_cases htd : tid = T
    · cases htab : alookup w.archetypes tid with
      | none =>
        exfalso
        obtain ⟨t, ht, _⟩ := hwf.valid (id, tid, row) (alookup_eq_some_mem hlook)
        rw [show ((id : Nat), tid, row).2.1 = tid from rfl] at ht
        rw [htab] at ht
        cases ht
      | some table =>
        rw [despawn_eq_ok hlook htd htab] at hd
        obtain rfl := Except.ok.inj hd
        subst htd
        have hmem : (id, tid, row) ∈ w.entities := alookup_eq_some_mem hlook
        have hrow : row < table.length := by
          obtain ⟨t0, ht0, hr⟩ := hwf.valid _ hmem
          have h2 : alookup w.archetypes tid = some t0 := ht0
          rw [htab] at h2
          obtain rfl := Option.some.inj h2
          exact hr
        have htblwf : TableWF (schemaOf tid) table :=
          hwf.tablesWF (tid, table) (alookup_eq_some_mem htab)
        set t1 := Archetype.remove (schemaOf tid) table row with ht1
        have ht1wf : TableWF (schemaOf tid) t1 := TableWF_remove htblwf row
        have ht1len : t1.length = table.length - 1 := rfl
        set ents1 := aerase id w.entities with hents1
        have hnd1 : (keysOf ents1).Nodup := nodup_keysOf_aerase _ _ hwf.entNodup
        have hidout : id ∉ keysOf ents1 := not_mem_keysOf_aerase _ _ hwf.entNodup
        have huniq1 : ∀ p ∈ ents1, ∀ q ∈ ents1, p.2 = q.2 → p = q :=
          fun p hp q hq => hwf.inj p (mem_aerase hp) q (mem_aerase hq)
        have hmemr := @mem_repoint_strong ents1 tid t1.length row hnd1 huniq1
        refine ⟨?_, ?_, ?_, ?_, ?_, ?_⟩
        · show (keysOf (repoint tid t1.length row ents1)).Nodup
          rw [keysOf_repoint]
          exact hnd1
        · exact nodup_keysOf_ainsert _ _ _ hwf.archNodup
        · intro p hp
          rcases hmemr p hp with ⟨hp1, _⟩ | ⟨_, hp1⟩
          · exact hwf.idsLt p (mem_aerase hp1)
          · exact hwf.idsLt (p.1, tid, t1.length) (mem_aerase hp1)
        · intro p hp
          rcases hmemr p hp with ⟨hp1, hpne⟩ | ⟨hpv, hp1⟩
          · obtain ⟨u, hu, hurow⟩ := hwf.valid p (mem_aerase hp1)
            by_cases htidp : p.2.1 = tid
            · rw [htidp] at hu
              obtain rfl := Option.some.inj (htab ▸ hu)
              refine ⟨t1, ?_, ?_⟩
              · rw [htidp]
                exact alookup_ainsert_self _ _ _
              · have : p.2.2 ≠ t1.length := by
                  intro hc
                  exact hpne (Prod.ext htidp hc)
                omega
            · exact ⟨u, by rw [alookup_ainsert_ne _ _ _ _ htidp]; exact hu, hurow⟩
          · have hrowlt : row < t1.length := by
              rcases Nat.lt_or_ge row t1.length with h | h
              · exact h
              · exfalso
                have hrowe : row = t1.length := by omega
                have : ((p.1, tid, t1.length) : Nat × TypeId × Nat) ∈ w.entities :=
                  mem_aerase hp1
                have heq2 := hwf.inj _ this _ hmem (by rw [hrowe])
                have : p.1 = id := congrArg Prod.fst heq2
                subst this
                exact hidout (List.mem_map.mpr ⟨_, hp1, rfl⟩)
            refine ⟨t1, ?_, ?_⟩
            · rw [show p.2.1 = tid from congrArg Prod.fst hpv]
              exact alookup_ainsert_self _ _ _
            · rw [show p.2.2 = row from congrArg Prod.snd hpv]
              exact hrowlt
        · intro p hp q hq hval
          rcases hmemr p hp with ⟨hp1, hpne⟩ | ⟨hpv, hp1⟩ <;>
            rcases hmemr q hq with ⟨hq1, hqne⟩ | ⟨hqv, hq1⟩
          · exact huniq1 p hp1 q hq1 hval
          · exfalso
            have hpval : p.2 = (tid, row) := hval.trans hqv
            have : p ∈ w.entities := mem_aerase hp1
            have heq2 := hwf.inj p this _ hmem hpval
            have : p.1 = id := congrArg Prod.fst heq2
            subst this
            exact hidout (List.mem_map.mpr ⟨p, hp1, rfl⟩)
          · exfalso
            have hqval : q.2 = (tid, row) := hval.symm.trans hpv
            have : q ∈ w.entities := mem_aerase hq1
            have heq2 := hwf.inj q this _ hmem hqval
            have : q.1 = id := congrArg Prod.fst heq2
            subst this
            exact hidout (List.mem_map.mpr ⟨q, hq1, rfl⟩)
          · have h1 := huniq1 _ hp1 _ hq1 rfl
            injection h1 with hfst hsnd
            exact Prod.ext hfst (hpv.trans hqv.symm)
        · intro p hp
          rcases (mem_ainsert hwf.archNodup).mp hp with rfl | ⟨hp, _⟩
          · exact ht1wf
          · exact hwf.tablesWF p hp
    · rw [despawn_eq_mismatch hlook htd] at hd
      cases hd

/-! ### `get_component`: unfolding equations -/

theorem get_component_eq_none (w : World) {C idq : Nat}
    (h : alookup w.entities idq = none) : w.get_component C idq = none := by
  simp only [World.get_component, h]

theorem get_component_eq_noTable (w : World) {C idq tid row : Nat}
    (h : alookup w.entities idq = some (tid, row))
    (ht : alookup w.archetypes tid = none) : w.get_component C idq = none := by
  simp only [World.get_component, h, ht]

theorem get_component_eq_some (w : World) {C idq tid row : Nat} {table : Table}
    (h : alookup w.entities idq = some (tid, row))
    (ht : alookup w.archetypes tid = some table) :
    w.get_component C idq = (table.column C).bind (fun col => col[row]?) := by
  simp only [World.get_component, h, ht]

/-! ### Despawn preserves other entities' components -/

theorem despawn_ok_component_eq {schemaOf : TypeId → List TypeId} {w w' : World}
    {T id : Nat} (hwf : WorldWF schemaOf w)
    (hok : w.despawn schemaOf T id = .ok w') {id' : Nat} (hne : id' ≠ id)
    (C : TypeId) : w'.get_component C id' = w.get_component C id' := by
  cases hlook : alookup w.entities id with
  | none =>
    rw [despawn_eq_none hlook] at hok
    obtain rfl := Except.ok.inj hok
    rfl
  | some v =>
    obtain ⟨tid, row⟩ := v
    by_cases htd : tid = T
    · cases htab : alookup w.archetypes tid with
      | none =>
        rw [despawn_eq_noTable hlook htd htab] at hok
        obtain rfl := Except.ok.inj hok
        cases hlook' : alookup w.entities id' with
        | none =>
          have hL : alookup ({ w with entities := aerase id w.entities } : World).entities id' = none := by
            show alookup (aerase id w.entities) id' = none
            rw [alookup_aerase_ne _ _ _ hne]
            exact hlook'
          rw [get_component_eq_none _ hL, get_component_eq_none _ hlook']
        | some v' =>
          obtain ⟨tid2, r2⟩ := v'
          have hL : alookup ({ w with entities := aerase id w.entities } : World).entities id' = some (tid2, r2) := by
            show alookup (aerase id w.entities) id' = _
            rw [alookup_aerase_ne _ _ _ hne]
            exact hlook'
          cases htab2 : alookup w.archetypes tid2 with
          | none =>
            rw [get_component_eq_noTable _ hL htab2, get_component_eq_noTable _ hlook' htab2]
          | some u =>
            rw [get_component_eq_some _ hL htab2, get_component_eq_some _ hlook' htab2]
      | some table =>
        rw [despawn_eq_ok hlook htd htab] at hok
        obtain rfl := Except.ok.inj hok
        subst htd
        have hmem : (id, tid, row) ∈ w.entities := alookup_eq_some_mem hlook
        have hrow : row < table.length := by
          obtain ⟨t0, ht0, hr⟩ := hwf.valid _ hmem
          have h2 : alookup w.archetypes tid = some t0 := ht0
          rw [htab] at h2
          obtain rfl := Option.some.inj h2
          exact hr
        have htblwf : TableWF (schemaOf tid) table :=
          hwf.tablesWF (tid, table) (alookup_eq_some_mem htab)
        set t1 := Archetype.remove (schemaOf tid) table row with ht1
        have ht1len : t1.length = table.length - 1 := rfl
        set ents1 := aerase id w.entities with hents1
        have hnd1 : (keysOf ents1).Nodup := nodup_keysOf_aerase _ _ hwf.entNodup
        have hidout : id ∉ keysOf ents1 := not_mem_keysOf_aerase _ _ hwf.entNodup
        cases hlook' : alookup w.entities id' with
        | none =>
          have h1 : alookup ents1 id' = none := by
            rw [hents1, alookup_aerase_ne _ _ _ hne]
            exact hlook'
          have hL : alookup ({ w with entities := repoint tid t1.length row ents1, archetypes := ainsert tid t1 w.archetypes } : World).entities id' = none := by
            show alookup (repoint tid t1.length row ents1) id' = none
            exact alookup_repoint_none _ _ _ h1
          rw [get_component_eq_none _ hL, get_component_eq_none _ hlook']
        | some v' =>
          obtain ⟨tid2, r2⟩ := v'
          have hmem' : (id', tid2, r2) ∈ w.entities := alookup_eq_some_mem hlook'
          have h1 : alookup ents1 id' = some (tid2, r2) := by
            rw [hents1, alookup_aerase_ne _ _ _ hne]
            exact hlook'
          by_cases htid2 : tid2 = tid
          · subst htid2
            have hr2 : r2 < table.length := by
              obtain ⟨t0, ht0, hr⟩ := hwf.valid _ hmem'
              have h2 : alookup w.archetypes tid2 = some t0 := ht0
              rw [htab] at h2
              obtain rfl := Option.some.inj h2
              exact hr
            have hr2row : r2 ≠ row := by
              intro hco
              have := hwf.inj _ hmem' _ hmem (by rw [hco])
              exact hne (congrArg Prod.fst this)
            have htabL : alookup ({ w with entities := repoint tid2 t1.length row ents1, archetypes := ainsert tid2 t1 w.archetypes } : World).archetypes tid2 = some t1 := by
              show alookup (ainsert tid2 t1 w.archetypes) tid2 = some t1
              exact alookup_ainsert_self _ _ _
            by_cases hlast : r2 = table.length - 1
            · have huniq : ∀ q ∈ ents1, q.2 = (tid2, t1.length) → q.1 = id' := by
                intro q hq hqv
                have hq2 : q.2 = ((id' : Nat), tid2, r2).2 := by
                  rw [hqv, ht1len, ← hlast]
                have := hwf.inj q (mem_aerase hq) _ hmem' hq2
                exact congrArg Prod.fst this
              have hL : alookup ({ w with entities := repoint tid2 t1.length row ents1, archetypes := ainsert tid2 t1 w.archetypes } : World).entities id' = some (tid2, row) := by
                show alookup (repoint tid2 t1.length row ents1) id' = some (tid2, row)
                refine alookup_repoint_self _ _ _ huniq ?_
                rw [h1, ht1len, ← hlast]
              rw [get_component_eq_some _ hL htabL, get_component_eq_some _ hlook' htab]
              rw [ht1, column_remove htblwf row C]
              cases hcol : table.column C with
              | none => rfl
              | some col =>
                have hclen : col.length = table.length := column_length htblwf hcol
                show (swapRemove col row)[row]? = col[r2]?
                have hrowlt : row < col.length - 1 := by
                  rw [hclen]
                  omega
                rw [swapRemove_getElem?_eq col row hrowlt, hclen, ← hlast]
            · have hL : alookup ({ w with entities := repoint tid2 t1.length row ents1, archetypes := ainsert tid2 t1 w.archetypes } : World).entities id' = some (tid2, r2) := by
                show alookup (repoint tid2 t1.length row ents1) id' = some (tid2, r2)
                refine alookup_repoint_of_ne _ _ _ h1 ?_
                intro hco
                have : r2 = t1.length := congrArg Prod.snd hco
                rw [ht1len] at this
                exact hlast this
              rw [get_component_eq_some _ hL htabL, get_component_eq_some _ hlook' htab]
              rw [ht1, column_remove htblwf row C]
              cases hcol : table.column C with
              | none => rfl
              | some col =>
                have hclen : col.length = table.length := column_length htblwf hcol
                show (swapRemove col row)[r2]? = col[r2]?
                exact swapRemove_getElem?_ne col row r2 (by omega) hr2row
          · have hL : alookup ({ w with entities := repoint tid t1.length row ents1, archetypes := ainsert tid t1 w.archetypes } : World).entities id' = some (tid2, r2) := by
              show alookup (repoint tid t1.length row ents1) id' = some (tid2, r2)
              refine alookup_repoint_of_ne _ _ _ h1 ?_
              intro hco
              exact htid2 (congrArg Prod.fst hco)
            cases htab2 : alookup w.archetypes tid2 with
            | none =>
              have htabL : alookup ({ w with entities := repoint tid t1.length row ents1, archetypes := ainsert tid t1 w.archetypes } : World).archetypes tid2 = none := by
                show alookup (ainsert tid t1 w.archetypes) tid2 = none
                rw [alookup_ainsert_ne _ _ _ _ htid2]
                exact htab2
              rw [get_component_eq_noTable _ hL htabL,
                get_component_eq_noTable _ hlook' htab2]
            | some u =>
              have htabL : alookup ({ w with entities := repoint tid t1.length row ents1, archetypes := ainsert tid t1 w.archetypes } : World).archetypes tid2 = some u := by
                show alookup (ainsert tid t1 w.archetypes) tid2 = some u
                rw [alookup_ainsert_ne _ _ _ _ htid2]
                exact htab2
              rw [get_component_eq_some _ hL htabL,
                get_component_eq_some _ hlook' htab2]
    · rw [despawn_eq_mismatch hlook htd] at hok
      cases hok

/-! ### Operation sequences

A run of the system: a registration phase (the builder calls at startup),
followed by any sequence of spawn/despawn calls. A sequence aborts (`none`)
at the first panic. `OpValid` records what Rust's type system enforces
statically: a spawned value has exactly its archetype's fields. -/

inductive Op where
  | spawn (tid : TypeId) (vals : List Nat)
  | despawn (tid : TypeId) (id : Nat)

def OpValid (schemaOf : TypeId → List TypeId) : Op → Prop
  | .spawn tid vals => vals.length = (schemaOf tid).length
  | .despawn _ _ => True

def applyOp (schemaOf : TypeId → List TypeId) (w : World) : Op → Option World
  | .spawn tid vals => (w.spawn schemaOf tid vals).map Prod.fst
  | .despawn tid id => (w.despawn schemaOf tid id).toOption

def applyOps (schemaOf : TypeId → List TypeId) : World → List Op → Option World
  | w, [] => some w
  | w, op :: ops => (applyOp schemaOf w op).bind (fun w1 => applyOps schemaOf w1 ops)

/-- The registration phase: `register` / `register_unsaved` builder calls. -/
def registerAll (schemaOf : TypeId → List TypeId) : World → List (TypeId × Bool) → World
  | w, [] => w
  | w, (tid, saved) :: rest =>
    registerAll schemaOf
      (if saved then w.register schemaOf tid else w.register_unsaved schemaOf tid) rest

theorem WorldWF_registerAll (schemaOf : TypeId → List TypeId)
    (regs : List (TypeId × Bool)) {w : World}
    (hwf : WorldWF schemaOf w) (hent : w.entities = []) :
    WorldWF schemaOf (registerAll schemaOf w regs) ∧
    (registerAll schemaOf w regs).entities = [] := by
  induction regs generalizing w with
  | nil => exact ⟨hwf, hent⟩
  | cons hd rest ih =>
    obtain ⟨tid, saved⟩ := hd
    cases saved with
    | true =>
      obtain ⟨h1, h2⟩ := WorldWF_register tid hwf hent
      exact ih h1 h2
    | false =>
      obtain ⟨h1, h2⟩ := WorldWF_register_unsaved tid hwf hent
      exact ih h1 h2

theorem WorldWF_applyOps {schemaOf : TypeId → List TypeId} {w0 w : World}
    {ops : List Op} (h0 : WorldWF schemaOf w0)
    (hops : ∀ op ∈ ops, OpValid schemaOf op)
    (h : applyOps schemaOf w0 ops = some w) : WorldWF schemaOf w := by
  induction ops generalizing w0 with
  | nil =>
    obtain rfl := Option.some.inj h
    exact h0
  | cons op rest ih =>
    rw [applyOps] at h
    cases hop : applyOp schemaOf w0 op with
    | none => rw [hop] at h; cases h
    | some w1 =>
      rw [hop, Option.some_bind] at h
      refine ih ?_ (fun o ho => hops o (List.mem_cons_of_mem _ ho)) h
      cases op with
      | spawn tid vals =>
        simp only [applyOp] at hop
        cases hsp : w0.spawn schemaOf tid vals with
        | none => rw [hsp] at hop; cases hop
        | some p =>
          obtain ⟨wp, idp⟩ := p
          rw [hsp, Option.map_some'] at hop
          obtain rfl := Option.some.inj hop
          exact WorldWF_spawn h0
            (hops (.spawn tid vals) (List.mem_cons_self _ _)) hsp
      | despawn tid id =>
        simp only [applyOp] at hop
        cases hdp : w0.despawn schemaOf tid id with
        | error e => rw [hdp] at hop; cases hop
        | ok wd =>
          rw [hdp] at hop
          obtain rfl := Option.some.inj hop
          exact WorldWF_despawn h0 hdp

/-- C1: for every sequence of spawn/despawn operations applied to a freshly
registered World, after any successful despawn every remaining live EntityId
(any id other than the despawned one) resolves via `get_component`, for every
component type, to exactly the value it held before the despawn: the
swap-remove compaction together with despawn's fixup scan (which repoints the
one entity whose row was swapped into the vacated slot) never leaves a stale
or scrambled mapping for any unrelated entity. -/
theorem despawn_preserves_live_entities
    (schemaOf : TypeId → List TypeId) (regs : List (TypeId × Bool)) (ops : List Op)
    (w w' : World) (T id id' C : Nat)
    (hreach : applyOps schemaOf (registerAll schemaOf World.empty regs) ops = some w)
    (hops : ∀ op ∈ ops, OpValid schemaOf op)
    (hok : w.despawn schemaOf T id = .ok w')
    (hne : id' ≠ id) :
    w'.get_component C id' = w.get_component C id' := by
  have h0 := WorldWF_registerAll schemaOf regs (WorldWF_empty schemaOf) rfl
  have hwf := WorldWF_applyOps h0.1 hops hreach
  exact despawn_ok_component_eq hwf hok hne C

def c1SchemaOf : TypeId → List TypeId := fun _ => [5]

def c1Ops : List Op := [.spawn 7 [10], .spawn 7 [20], .spawn 7 [30]]

def c1World : World :=
  (applyOps c1SchemaOf (registerAll c1SchemaOf World.empty [(7, true)]) c1Ops).getD
    World.empty

def c1WorldAfter : World :=
  ((c1World.despawn c1SchemaOf 7 1).toOption).getD World.empty

theorem despawn_preserves_live_entities_witness :
    c1WorldAfter.get_component 5 2 = c1World.get_component 5 2 :=
  despawn_preserves_live_entities c1SchemaOf [(7, true)] c1Ops c1World c1WorldAfter
    7 1 2 5 rfl
    (by
      intro op hop
      simp only [c1Ops, List.mem_cons, List.not_mem_nil, or_false] at hop
      rcases hop with rfl | rfl | rfl <;> exact rfl)
    rfl
    (by decide)

/-- C10: despawning a live entity with the wrong archetype type parameter
panics (`Despawn archetype mismatch`), and at the moment of the panic the
id's mapping has already been removed from the identity map (the removal is
not rolled back) while the table's row data is untouched: the error path is
not atomic. -/
theorem despawn_mismatch_nonatomic
    (schemaOf : TypeId → List TypeId) (w : World) (T id tid row : Nat)
    (hlook : alookup w.entities id = some (tid, row))
    (hne : tid ≠ T) (hnd : (keysOf w.entities).Nodup) :
    ∃ wp, w.despawn schemaOf T id = .error wp ∧
      wp.entities = aerase id w.entities ∧
      alookup wp.entities id = none ∧
      wp.archetypes = w.archetypes ∧ wp.resources = w.resources := by
  refine ⟨{ w with entities := aerase id w.entities },
    despawn_eq_mismatch hlook hne, rfl, ?_, rfl, rfl⟩
  show alookup (aerase id w.entities) id = none
  rw [alookup_eq_none_iff]
  exact not_mem_keysOf_aerase _ _ hnd

def c10SchemaOf : TypeId → List TypeId := fun _ => [5]

def c10World : World :=
  { next_id := 1, entities := [(0, 7, 0)],
    archetypes := [(7, (Archetype.add [5] [42] (Table.new [5])).1)],
    resources := [] }

theorem despawn_mismatch_nonatomic_witness :
    ∃ wp, c10World.despawn c10SchemaOf 9 0 = .error wp ∧
      wp.entities = aerase 0 c10World.entities ∧
      alookup wp.entities 0 = none ∧
      wp.archetypes = c10World.archetypes ∧ wp.resources = c10World.resources :=
  despawn_mismatch_nonatomic c10SchemaOf c10World 9 0 7 0 rfl (by decide) (by decide)

/-- C6: pushing a value of type `T` into a column bound to a different type
identity `U` is a silent no-op — the column (hence its length and contents)
is unchanged — and `downcast_ref::<T>()` on it returns `None`: a
mismatched-type access never yields reinterpreted data (the stored slice is
only ever exposed for the bound type). -/
theorem column_type_safety (v : VecAny) (T U : TypeId) (item : Nat)
    (hbound : v.ty = U) (hne : T ≠ U) :
    v.push T item = v ∧ (v.push T item).len = v.len ∧
    v.downcast_ref T = none := by
  have h : v.ty ≠ T := by
    rw [hbound]
    exact Ne.symm hne
  refine ⟨?_, ?_, ?_⟩
  · rw [VecAny.push, VecAny.run, if_pos h]
  · rw [VecAny.push, VecAny.run, if_pos h]
  · rw [VecAny.downcast_ref, if_pos h]

theorem column_type_safety_witness :
    (VecAny.mk (some [1, 2]) 3).push 4 9 = VecAny.mk (some [1, 2]) 3 ∧
    ((VecAny.mk (some [1, 2]) 3).push 4 9).len = (VecAny.mk (some [1, 2]) 3).len ∧
    (VecAny.mk (some [1, 2]) 3).downcast_ref 4 = none :=
  column_type_safety ⟨some [1, 2], 3⟩ 4 3 9 rfl (by decide)

/-- C3 counterexample: registering the same concrete type twice does not fail
loudly: on a world whose table for type identity 7 already holds one spawned
row, a second `register` proceeds normally and leaves a fresh empty table in
its place (the prior row is silently dropped while the entity map still
references it). -/
def c3SchemaOf : TypeId → List TypeId := fun _ => [5]

def c3World : World :=
  (((World.empty.register c3SchemaOf 7).spawn c3SchemaOf 7 [42]).map Prod.fst).getD
    World.empty

theorem register_twice_proceeds_cx :
    (alookup c3World.archetypes 7).map Table.len = some 1 ∧
    (alookup (c3World.register c3SchemaOf 7).archetypes 7).map Table.len = some 0 ∧
    (c3World.register c3SchemaOf 7).entities = c3World.entities := by
  refine ⟨?_, ?_, ?_⟩ <;> decide

/-- C3 amended: `register::<T>()` on a world where `T`'s type identity is
already registered is silently accepted: it is a plain map insert that
replaces the existing table with a fresh empty one (and likewise
`register_unsaved`); no panic or failure path exists. -/
theorem register_twice_overwrites (schemaOf : TypeId → List TypeId) (w : World)
    (tid : TypeId) :
    alookup (w.register schemaOf tid).archetypes tid =
      some (Table.new (schemaOf tid)) ∧
    alookup (w.register_unsaved schemaOf tid).archetypes tid =
      some (Table.new_unsaved (schemaOf tid)) :=
  ⟨alookup_ainsert_self _ _ _, alookup_ainsert_self _ _ _⟩

/-- C7: `with_resource` inserted twice for one type leaves only the second
value retrievable; `remove` on a freshly inserted resource (reference count
one) returns the value; `remove` when another shared handle is still alive
(reference count above one) returns `None`; and `remove` of a never-inserted
type returns `None`. -/
theorem resource_singleton_semantics (w w2 : World) (T : Nat)
    (v1 v2 val : List Nat) (n : Nat)
    (hlive : alookup w.resources T = some ⟨val, n⟩) (hn : n ≠ 0)
    (hnone : alookup w2.resources T = none) :
    (∀ w0 : World, ((w0.with_resource T v1).with_resource T v2).getResource T
      = some v2) ∧
    (∀ w0 : World, ((w0.with_resource T v2).remove T).1 = some v2) ∧
    (w.remove T).1 = none ∧
    (w2.remove T).1 = none := by
  refine ⟨?_, ?_, ?_, ?_⟩
  · intro w0
    show (alookup (ainsert T ⟨v2, 0⟩ (ainsert T ⟨v1, 0⟩ w0.resources)) T).map Res.value
      = some v2
    rw [alookup_ainsert_self]
    rfl
  · intro w0
    show (World.remove { w0 with resources := ainsert T ⟨v2, 0⟩ w0.resources } T).1
      = some v2
    unfold World.remove
    rw [show ({ w0 with resources := ainsert T ⟨v2, 0⟩ w0.resources } : World).resources
      = ainsert T ⟨v2, 0⟩ w0.resources from rfl]
    rw [alookup_ainsert_self]
    rfl
  · unfold World.remove
    rw [hlive]
    simp only [if_neg hn]
  · unfold World.remove
    rw [hnone]

theorem resource_singleton_semantics_witness :
    (∀ w0 : World, ((w0.with_resource 3 [1]).with_resource 3 [2]).getResource 3
      = some [2]) ∧
    (∀ w0 : World, ((w0.with_resource 3 [2]).remove 3).1 = some [2]) ∧
    ((World.mk 0 [] [] [(3, ⟨[7], 1⟩)]).remove 3).1 = none ∧
    (World.empty.remove 3).1 = none :=
  resource_singleton_semantics (World.mk 0 [] [] [(3, ⟨[7], 1⟩)]) World.empty
    3 [1] [2] [7] 1 rfl (by decide) rfl

/-! ### Query correctness -/

theorem tupleFilter_eq_all (qs : List QF) (p : TypeId × Table) :
    tupleFilter qs p = qs.all (fun q => q.tableFilter p) := by
  induction qs with
  | nil => rfl
  | cons q rest ih =>
    cases rest with
    | nil => simp [tupleFilter]
    | cons q2 rest2 =>
      rw [show tupleFilter (q :: q2 :: rest2) p
          = (q.tableFilter p && tupleFilter (q2 :: rest2) p) from rfl, ih]
      simp [List.all_cons]

theorem column_some_of_has {schema : List TypeId} {t : Table} {T : TypeId}
    (hwf : TableWF schema t) (h : t.has_column T = true) :
    ∃ col, t.column T = some col ∧ col.length = t.length := by
  have hiff := column_isSome_iff_has_column T hwf.tys
  rw [h] at hiff
  obtain ⟨col, hcol⟩ := Option.isSome_iff_exists.mp hiff
  exact ⟨col, hcol, column_length hwf hcol⟩

/-- C5: on a world holding exactly a table `T1` with components `A` and `B`
and a table `T2` with `A` but not `B`, the query `(&A, &B)` selects exactly
`T1` and each of its slots yields exactly `T1`'s rows (its count equals
`T1`'s row count; `T2` contributes nothing), while a `With<A>` query matches
both tables; and a tuple of filters accepts a table exactly when every
component filter accepts it (logical AND). -/
theorem query_two_tables (w : World) (tid1 tid2 A B : TypeId) (T1 T2 : Table)
    (s1 : List TypeId)
    (harch : w.archetypes = [(tid1, T1), (tid2, T2)])
    (hwf1 : TableWF s1 T1)
    (hA1 : T1.has_column A = true) (hB1 : T1.has_column B = true)
    (hA2 : T2.has_column A = true) (hB2 : T2.has_column B = false) :
    w.matchingTables [.qref A, .qref B] = [(tid1, T1)] ∧
    (w.queryRef [.qref A, .qref B] A).length = T1.len ∧
    (w.queryRef [.qref A, .qref B] B).length = T1.len ∧
    w.matchingTables [.qwith A] = [(tid1, T1), (tid2, T2)] ∧
    (∀ qs : List QF, ∀ p : TypeId × Table,
      tupleFilter qs p = qs.all (fun q => q.tableFilter p)) := by
  have hmatch : w.matchingTables [.qref A, .qref B] = [(tid1, T1)] := by
    rw [World.matchingTables, harch]
    simp [List.filter_cons, tupleFilter_eq_all, QF.tableFilter, hA1, hB1, hA2, hB2]
  obtain ⟨colA, hcolA, hlenA⟩ := column_some_of_has hwf1 hA1
  obtain ⟨colB, hcolB, hlenB⟩ := column_some_of_has hwf1 hB1
  refine ⟨hmatch, ?_, ?_, ?_, tupleFilter_eq_all⟩
  · rw [World.queryRef, hmatch, refData]
    simp [hcolA, hlenA, Table.len]
  · rw [World.queryRef, hmatch, refData]
    simp [hcolB, hlenB, Table.len]
  · rw [World.matchingTables, harch]
    simp [List.filter_cons, tupleFilter_eq_all, QF.tableFilter, hA1, hA2]

def c5T1 : Table := (Archetype.add [1, 2] [10, 11] (Table.new [1, 2])).1

def c5T2 : Table :=
  (Archetype.add [1] [30] ((Archetype.add [1] [20] (Table.new [1])).1)).1

def c5World : World := World.mk 0 [] [(100, c5T1), (200, c5T2)] []

theorem query_two_tables_witness :
    c5World.matchingTables [.qref 1, .qref 2] = [(100, c5T1)] ∧
    (c5World.queryRef [.qref 1, .qref 2] 1).length = c5T1.len ∧
    (c5World.queryRef [.qref 1, .qref 2] 2).length = c5T1.len ∧
    c5World.matchingTables [.qwith 1] = [(100, c5T1), (200, c5T2)] ∧
    (∀ qs : List QF, ∀ p : TypeId × Table,
      tupleFilter qs p = qs.all (fun q => q.tableFilter p)) :=
  query_two_tables c5World 100 200 1 2 c5T1 c5T2 [1, 2] rfl
    (by
      refine ⟨?_, ?_, ?_⟩ <;> decide)
    (by decide) (by decide) (by decide) (by decide)

/-! ### System dispatch order -/

theorem updateRes_log {w : World} {logT : Nat} {log : List Nat} {n : Nat}
    (f : List Nat → List Nat)
    (hlog : alookup w.resources logT = some ⟨log, n⟩) :
    alookup (w.updateRes logT f).resources logT = some ⟨f log, n⟩ := by
  rw [World.updateRes, hlog]
  show alookup (ainsert logT ⟨f log, n⟩ w.resources) logT = some ⟨f log, n⟩
  exact alookup_ainsert_self _ _ _

theorem tick_fold_log {E : Type} (f : E → Nat) (logT : Nat) (tags : List Nat)
    (w : World) (log : List Nat) (n : Nat)
    (hlog : alookup w.resources logT = some ⟨log, n⟩) :
    alookup ((tags.map (loggerSys E f logT)).foldl
      (fun b s => s.tickFn b) w).resources logT = some ⟨log ++ tags, n⟩ := by
  induction tags generalizing w log with
  | nil =>
    simpa using hlog
  | cons tag rest ih =>
    rw [List.map_cons, List.foldl_cons]
    have hstep := updateRes_log (w := w) (fun l => l ++ [tag]) hlog
    have := ih (w.updateRes logT (fun l => l ++ [tag])) (log ++ [tag]) hstep
    simpa using this

theorem submit_fold_log {E : Type} (f : E → Nat) (logT : Nat) (e : E)
    (tags : List Nat) (w : World) (log : List Nat) (n : Nat)
    (hlog : alookup w.resources logT = some ⟨log, n⟩) :
    alookup ((tags.map (loggerSys E f logT)).foldl
      (fun b s => s.eventFn b e) w).resources logT
      = some ⟨log ++ tags.flatMap (fun t => [t, f e]), n⟩ := by
  induction tags generalizing w log with
  | nil =>
    simpa using hlog
  | cons tag rest ih =>
    rw [List.map_cons, List.foldl_cons]
    have hstep := updateRes_log (w := w) (fun l => l ++ [tag, f e]) hlog
    have := ih (w.updateRes logT (fun l => l ++ [tag, f e])) (log ++ [tag, f e]) hstep
    simpa using this

/-- C8: dispatch invokes every registered system exactly once per call, in
registration order, and iterates a snapshot of the systems list: on a world
whose systems are log-instrumented (each appends its tag, and for events its
tag with a projection of the event, to a shared log resource), one `tick()`
appends exactly the registration-ordered tag list, one `submit(event)`
appends exactly the registration-ordered tag/event pairs built from that
event, and the systems list itself is unchanged by dispatch. -/
theorem dispatch_order_exactly_once {E : Type} (f : E → Nat) (logT : Nat)
    (ws : WorldS E) (tags : List Nat) (log : List Nat) (n : Nat) (e : E)
    (hsys : ws.systems = tags.map (loggerSys E f logT))
    (hlog : alookup ws.base.resources logT = some ⟨log, n⟩) :
    ws.tick.base.getResource logT = some (log ++ tags) ∧
    (ws.submit e).base.getResource logT
      = some (log ++ tags.flatMap (fun t => [t, f e])) ∧
    ws.tick.systems = ws.systems ∧ (ws.submit e).systems = ws.systems := by
  refine ⟨?_, ?_, rfl, rfl⟩
  · show (alookup (ws.systems.foldl (fun b s => s.tickFn b) ws.base).resources logT).map
      Res.value = some (log ++ tags)
    rw [hsys, tick_fold_log f logT tags ws.base log n hlog]
    rfl
  · show (alookup (ws.systems.foldl (fun b s => s.eventFn b e) ws.base).resources
      logT).map Res.value = some (log ++ tags.flatMap (fun t => [t, f e]))
    rw [hsys, submit_fold_log f logT e tags ws.base log n hlog]
    rfl

def c8Base : World := World.empty.with_resource 9 []

def c8WorldS : WorldS Nat :=
  ⟨c8Base, [loggerSys Nat id 9 100, loggerSys Nat id 9 200]⟩

theorem dispatch_order_exactly_once_witness :
    c8WorldS.tick.base.getResource 9 = some ([] ++ [100, 200]) ∧
    (c8WorldS.submit 55).base.getResource 9
      = some ([] ++ [100, 200].flatMap (fun t => [t, id 55])) ∧
    c8WorldS.tick.systems = c8WorldS.systems ∧
    (c8WorldS.submit 55).systems = c8WorldS.systems :=
  dispatch_order_exactly_once id 9 c8WorldS [100, 200] [] 0 55 rfl rfl

/-! ### Scene loading -/

theorem addRows_eq_none_iff {schema : List TypeId} {t : Table}
    {rows : List SceneRow} :
    addRows schema t rows = none ↔ SceneRow.bad ∈ rows := by
  induction rows generalizing t with
  | nil => simp [addRows]
  | cons r rest ih =>
    cases r with
    | bad => simp [addRows]
    | good vals =>
      simp only [addRows, Option.map_eq_none', List.mem_cons]
      rw [ih]
      simp

theorem addRows_length {schema : List TypeId} {t t1 : Table} {rows : List SceneRow}
    {idxs : List Nat} (h : addRows schema t rows = some (t1, idxs)) :
    idxs.length = rows.length := by
  induction rows generalizing t idxs with
  | nil =>
    rw [addRows] at h
    obtain ⟨rfl, rfl⟩ : (t, ([] : List Nat)) = (t1, idxs) := Option.some.inj h
    rfl
  | cons r rest ih =>
    cases r with
    | bad => rw [addRows] at h; cases h
    | good vals =>
      rw [addRows] at h
      cases hrec : addRows schema (Archetype.add schema vals t).1 rest with
      | none => rw [hrec] at h; cases h
      | some p =>
        obtain ⟨tp, ip⟩ := p
        rw [hrec, Option.map_some'] at h
        obtain ⟨rfl, rfl⟩ : (tp, (Archetype.add schema vals t).2 :: ip) = (t1, idxs) :=
          Option.some.inj h
        rw [List.length_cons, ih hrec]
        rfl

theorem mem_ainsert_weak {α : Type} {l : List (Nat × α)} {k : Nat} {v : α}
    {p : Nat × α} (h : p ∈ ainsert k v l) : p = (k, v) ∨ p ∈ l := by
  induction l with
  | nil =>
    rw [ainsert_nil] at h
    exact Or.inl (List.mem_singleton.mp h)
  | cons hd tl ih =>
    obtain ⟨k0, v0⟩ := hd
    by_cases h0 : k0 = k
    · subst h0
      rw [ainsert_cons, if_pos rfl] at h
      rcases List.mem_cons.mp h with rfl | h
      · exact Or.inl rfl
      · exact Or.inr (List.mem_cons_of_mem _ h)
    · rw [ainsert_cons, if_neg h0] at h
      rcases List.mem_cons.mp h with rfl | h
      · exact Or.inr (List.mem_cons_self _ _)
      · rcases ih h with h | h
        · exact Or.inl h
        · exact Or.inr (List.mem_cons_of_mem _ h)

theorem length_ainsert_not_mem {α : Type} {l : List (Nat × α)} {k : Nat} (v : α)
    (h : k ∉ keysOf l) : (ainsert k v l).length = l.length + 1 := by
  induction l with
  | nil => rfl
  | cons hd tl ih =>
    obtain ⟨k0, v0⟩ := hd
    rw [keysOf_cons, List.mem_cons] at h
    push_neg at h
    rw [ainsert_cons, if_neg (Ne.symm h.1), List.length_cons, List.length_cons,
      ih h.2]

theorem insertLoaded_facts (tid : TypeId) (idxs : List Nat) (w : World)
    (hids : ∀ p ∈ w.entities, p.1 < w.next_id) :
    (insertLoaded w tid idxs).entities.length = w.entities.length + idxs.length ∧
    (∀ p ∈ (insertLoaded w tid idxs).entities,
      p.1 < (insertLoaded w tid idxs).next_id) ∧
    (insertLoaded w tid idxs).next_id = w.next_id + idxs.length := by
  induction idxs generalizing w with
  | nil => exact ⟨rfl, hids, rfl⟩
  | cons idx rest ih =>
    rw [insertLoaded]
    have hfresh : w.next_id ∉ keysOf w.entities := by
      intro hmem
      obtain ⟨p, hp, hfst⟩ := List.mem_map.mp hmem
      have := hids p hp
      omega
    have hids1 : ∀ p ∈ (ainsert w.next_id (tid, idx) w.entities), p.1 < w.next_id + 1 := by
      intro p hp
      rcases mem_ainsert_weak hp with rfl | hp
      · show w.next_id < w.next_id + 1
        omega
      · have := hids p hp
        omega
    obtain ⟨ih1, ih2, ih3⟩ := ih
      { w with entities := ainsert w.next_id (tid, idx) w.entities,
               next_id := w.next_id + 1 } hids1
    refine ⟨?_, ih2, ?_⟩
    · rw [ih1]
      show (ainsert w.next_id (tid, idx) w.entities).length + rest.length
        = w.entities.length + (rest.length + 1)
      rw [length_ainsert_not_mem _ hfresh]
      omega
    · rw [ih3]
      show w.next_id + 1 + rest.length = w.next_id + (rest.length + 1)
      omega

theorem visitMap_ok_facts (input : List (Nat × List SceneRow)) (w w' : World)
    (s : Scene) (hids : ∀ p ∈ w.entities, p.1 < w.next_id)
    (hok : visitMap w input = .ok w' s) :
    s = ⟨[]⟩ ∧
    w'.entities.length
      = w.entities.length + (input.map (fun p => p.2.length)).sum := by
  induction input generalizing w with
  | nil =>
    rw [visitMap] at hok
    obtain ⟨rfl, rfl⟩ : (w, (⟨[]⟩ : Scene)) = (w', s) := by
      cases hok
      exact rfl
    simp
  | cons hd rest ih =>
    obtain ⟨h, rows⟩ := hd
    rw [visitMap] at hok
    cases hfind : w.archetypes.find? (fun p => hashTid p.1 == h) with
    | none => rw [hfind] at hok; cases hok
    | some pr =>
      obtain ⟨tid, table⟩ := pr
      rw [hfind] at hok
      cases hsaved : table.saved with
      | false =>
        simp only [hsaved, Bool.false_eq_true, if_false] at hok
        cases hok
      | true =>
        simp only [hsaved, if_true] at hok
        cases hadd : addRows (table.columns.map Prod.fst) table rows with
        | none => rw [hadd] at hok; cases hok
        | some p =>
          obtain ⟨table1, idxs⟩ := p
          rw [hadd] at hok
          have hidsmid : ∀ q ∈ ({ w with
              archetypes := ainsert tid table1 w.archetypes } : World).entities,
              q.1 < ({ w with
                archetypes := ainsert tid table1 w.archetypes } : World).next_id := hids
          obtain ⟨hl, hidsl, hnl⟩ := insertLoaded_facts tid idxs
            { w with archetypes := ainsert tid table1 w.archetypes } hidsmid
          obtain ⟨hs, hlen⟩ := ih _ hidsl hok
          refine ⟨hs, ?_⟩
          rw [hlen, hl, List.map_cons, List.sum_cons, addRows_length hadd]
          show w.entities.length + rows.length + (rest.map (fun p => p.2.length)).sum
            = w.entities.length + (rows.length + (rest.map (fun p => p.2.length)).sum)
          omega

/-- C9: whenever `Scene::load` succeeds, the `Scene` value it returns has an
empty entities list (the collected list of freshly minted ids is discarded:
`visit_map` ends with `Scene { entities: Vec::new() }`), while the minted ids
are recorded only in the World's entity-identity map — one new entry per
reconstructed row. -/
theorem scene_load_returns_empty_scene (w : World)
    (input : List (Nat × List SceneRow)) (w' : World) (s : Scene)
    (hids : ∀ p ∈ w.entities, p.1 < w.next_id)
    (hok : Scene.load w input = .ok w' s) :
    s = ⟨[]⟩ ∧
    w'.entities.length
      = w.entities.length + (input.map (fun p => p.2.length)).sum :=
  visitMap_ok_facts input w w' s hids hok

def c9SchemaOf : TypeId → List TypeId := fun _ => [5]

def c9World : World := World.empty.register c9SchemaOf 7

def c9Input : List (Nat × List SceneRow) := [(7, [.good [1], .good [2]])]

def c9WorldAfter : World :=
  match Scene.load c9World c9Input with
  | .ok w _ => w
  | .panicked _ => World.empty

theorem scene_load_returns_empty_scene_witness :
    (⟨[]⟩ : Scene) = ⟨[]⟩ ∧
    c9WorldAfter.entities.length
      = c9World.entities.length + (c9Input.map (fun p => p.2.length)).sum :=
  scene_load_returns_empty_scene c9World c9Input c9WorldAfter ⟨[]⟩
    (by decide) rfl

/-- C2 counterexample: `Scene::load` of input whose map holds an
archetype-identity hash with no registered table panics (the source's
`expect("Missing archetype needed to deserialize scene")`) instead of
returning a propagated error result. -/
theorem scene_load_unregistered_hash_cx :
    Scene.load World.empty [(999, [])] =
      .panicked "Missing archetype needed to deserialize scene" := rfl

/-- C2 amended: `Scene::load` on input containing an archetype-identity hash
with no matching registered table, or a matched key whose row list contains a
malformed row, panics — through `expect` on the archetype scan and `unwrap`
in `DeserializeArchetype::deserialize` respectively — rather than returning a
propagated error result. -/
theorem scene_load_failures_panic (w : World) (h : Nat) (rows : List SceneRow)
    (rest : List (Nat × List SceneRow))
    (hfail : (∀ p ∈ w.archetypes, hashTid p.1 ≠ h) ∨
      ((∃ pr, w.archetypes.find? (fun p => hashTid p.1 == h) = some pr) ∧
        SceneRow.bad ∈ rows)) :
    ∃ msg, Scene.load w ((h, rows) :: rest) = .panicked msg := by
  rcases hfail with hnone | ⟨⟨pr, hfind⟩, hbad⟩
  · refine ⟨"Missing archetype needed to deserialize scene", ?_⟩
    have hf : w.archetypes.find? (fun p => hashTid p.1 == h) = none :=
      List.find?_eq_none.mpr (fun p hp => by simpa using hnone p hp)
    rw [Scene.load, visitMap, hf]
  · obtain ⟨tid, table⟩ := pr
    cases hsaved : table.saved with
    | false =>
      refine ⟨"Table deserialize unwrap on None", ?_⟩
      rw [Scene.load, visitMap, hfind]
      simp only [hsaved, Bool.false_eq_true, if_false]
    | true =>
      refine ⟨"DeserializeArchetype unwrap on row error", ?_⟩
      have haddn : addRows (table.columns.map Prod.fst) table rows = none :=
        addRows_eq_none_iff.mpr hbad
      rw [Scene.load, visitMap, hfind]
      simp only [hsaved, if_true, haddn]

theorem scene_load_failures_panic_witness :
    ∃ msg, Scene.load World.empty [(999, [SceneRow.good [1]])] = .panicked msg :=
  scene_load_failures_panic World.empty 999 [SceneRow.good [1]] []
    (Or.inl (by decide))

/-! ### Round-trip: `optMap` lemmas -/

theorem optMap_some_spec {α β : Type} {f : α → Option β} {l : List α}
    {l2 : List β} (h : optMap f l = some l2) :
    l2.length = l.length ∧
    ∀ k : Nat, ∀ a : α, l[k]? = some a → f a = l2[k]? := by
  induction l generalizing l2 with
  | nil =>
    rw [optMap] at h
    obtain rfl := Option.some.inj h
    exact ⟨rfl, fun k a hka => by simp at hka⟩
  | cons a rest ih =>
    rw [optMap] at h
    cases hb : f a with
    | none => rw [hb] at h; cases h
    | some b =>
      rw [hb] at h
      cases hbs : optMap f rest with
      | none => rw [hbs] at h; cases h
      | some bs =>
        rw [hbs] at h
        obtain rfl : b :: bs = l2 := Option.some.inj h
        obtain ⟨ihlen, ihget⟩ := ih hbs
        refine ⟨by simp [ihlen], ?_⟩
        intro k a0 hka
        cases k with
        | zero =>
          rw [List.getElem?_cons_zero] at hka
          obtain rfl := Option.some.inj hka
          rw [List.getElem?_cons_zero]
          exact hb
        | succ k0 =>
          rw [List.getElem?_cons_succ] at hka
          rw [List.getElem?_cons_succ]
          exact ihget k0 a0 hka

theorem optMap_some_of_forall {α β : Type} {f : α → Option β} {l : List α}
    (h : ∀ a ∈ l, (f a).isSome) : ∃ l2, optMap f l = some l2 := by
  induction l with
  | nil => exact ⟨[], rfl⟩
  | cons a rest ih =>
    obtain ⟨b, hb⟩ := Option.isSome_iff_exists.mp (h a (List.mem_cons_self _ _))
    obtain ⟨bs, hbs⟩ := ih (fun x hx => h x (List.mem_cons_of_mem _ hx))
    exact ⟨b :: bs, by rw [optMap, hb, hbs]; rfl⟩

theorem optMap_mem_spec {α β : Type} {f : α → Option β} {l : List α}
    {l2 : List β} (h : optMap f l = some l2) :
    ∀ b ∈ l2, ∃ a ∈ l, f a = some b := by
  intro b hb
  obtain ⟨hlen, hget⟩ := optMap_some_spec h
  obtain ⟨k, hk⟩ := List.mem_iff_getElem?.mp hb
  have hkl2 : k < l2.length := by
    by_contra hcon
    rw [List.getElem?_eq_none (by omega)] at hk
    cases hk
  obtain ⟨a, ha⟩ : ∃ a, l[k]? = some a := by
    rw [List.getElem?_eq_getElem (by omega)]
    exact ⟨_, rfl⟩
  refine ⟨a, List.mem_iff_getElem?.mpr ⟨k, ha⟩, ?_⟩
  rw [hget k a ha]
  exact hk

/-! ### Round-trip: grouping lemmas -/

/-- A `(table, row)` pair is recorded somewhere in a grouping. -/
def GMem (tid row : Nat) (G : List (TypeId × List Nat)) : Prop :=
  ∃ rows, (tid, rows) ∈ G ∧ row ∈ rows

theorem GMem_addToGroup_self (tid row : Nat) (acc : List (TypeId × List Nat)) :
    GMem tid row (addToGroup tid row acc) := by
  induction acc with
  | nil => exact ⟨[row], List.mem_singleton.mpr rfl, List.mem_singleton.mpr rfl⟩
  | cons hd tl ih =>
    obtain ⟨t, rows⟩ := hd
    by_cases h0 : t = tid
    · subst h0
      rw [addToGroup, if_pos rfl]
      exact ⟨rows ++ [row], List.mem_cons_self _ _, by simp⟩
    · rw [addToGroup, if_neg h0]
      obtain ⟨rows2, hmem, hrow⟩ := ih
      exact ⟨rows2, List.mem_cons_of_mem _ hmem, hrow⟩

theorem GMem_addToGroup_mono {t r : Nat} (tid row : Nat)
    {acc : List (TypeId × List Nat)} (h : GMem t r acc) :
    GMem t r (addToGroup tid row acc) := by
  obtain ⟨rows, hmem, hrow⟩ := h
  induction acc with
  | nil => simp at hmem
  | cons hd tl ih =>
    obtain ⟨t0, rows0⟩ := hd
    by_cases h0 : t0 = tid
    · subst h0
      rw [addToGroup, if_pos rfl]
      rcases List.mem_cons.mp hmem with heq | hmem2
      · injection heq with h1 h2
        subst h1
        subst h2
        refine ⟨_ ++ [row], List.mem_cons_self _ _, ?_⟩
        simp [hrow]
      · exact ⟨rows, List.mem_cons_of_mem _ hmem2, hrow⟩
    · rw [addToGroup, if_neg h0]
      rcases List.mem_cons.mp hmem with heq | hmem2
      · exact ⟨rows, heq ▸ List.mem_cons_self _ _, hrow⟩
      · obtain ⟨rows2, hmem3, hrow3⟩ := ih hmem2
        exact ⟨rows2, List.mem_cons_of_mem _ hmem3, hrow3⟩

theorem GMem_groupRowsAux_mono {t r : Nat} {ents : List (Nat × TypeId × Nat)}
    {acc : List (TypeId × List Nat)} (ids : List Nat) (h : GMem t r acc) :
    GMem t r (groupRowsAux ents acc ids) := by
  induction ids generalizing acc with
  | nil => exact h
  | cons id rest ih =>
    rw [groupRowsAux]
    cases hl : alookup ents id with
    | none => exact ih h
    | some v =>
      obtain ⟨tid, row⟩ := v
      exact ih (GMem_addToGroup_mono tid row h)

theorem GMem_groupRows {ents : List (Nat × TypeId × Nat)} {ids : List Nat}
    {id tid row : Nat} (hid : id ∈ ids) (hl : alookup ents id = some (tid, row)) :
    GMem tid row (groupRows ents ids) := by
  rw [groupRows]
  generalize hacc : ([] : List (TypeId × List Nat)) = acc
  clear hacc
  induction ids generalizing acc with
  | nil => simp at hid
  | cons id0 rest ih =>
    rw [groupRowsAux]
    rcases List.mem_cons.mp hid with rfl | hid2
    · rw [hl]
      exact GMem_groupRowsAux_mono rest (GMem_addToGroup_self tid row acc)
    · cases hl0 : alookup ents id0 with
      | none => exact ih hid2 _
      | some v =>
        obtain ⟨tid0, row0⟩ := v
        exact ih hid2 _

theorem addToGroup_rows_sound {tid row : Nat} {acc : List (TypeId × List Nat)}
    (P : Nat → Nat → Prop)
    (hacc : ∀ pr ∈ acc, ∀ r ∈ pr.2, P pr.1 r) (hnew : P tid row) :
    ∀ pr ∈ addToGroup tid row acc, ∀ r ∈ pr.2, P pr.1 r := by
  induction acc with
  | nil =>
    intro pr hpr r hr
    rw [addToGroup] at hpr
    obtain rfl := List.mem_singleton.mp hpr
    obtain rfl := List.mem_singleton.mp hr
    exact hnew
  | cons hd tl ih =>
    obtain ⟨t0, rows0⟩ := hd
    by_cases h0 : t0 = tid
    · subst h0
      rw [addToGroup, if_pos rfl]
      intro pr hpr r hr
      rcases List.mem_cons.mp hpr with rfl | hpr2
      · rcases List.mem_append.mp hr with hr2 | hr2
        · exact hacc (t0, rows0) (List.mem_cons_self _ _) r hr2
        · obtain rfl := List.mem_singleton.mp hr2
          exact hnew
      · exact hacc pr (List.mem_cons_of_mem _ hpr2) r hr
    · rw [addToGroup, if_neg h0]
      intro pr hpr r hr
      rcases List.mem_cons.mp hpr with rfl | hpr2
      · exact hacc (t0, rows0) (List.mem_cons_self _ _) r hr
      · exact ih (fun q hq => hacc q (List.mem_cons_of_mem _ hq)) pr hpr2 r hr

theorem groupRows_rows_sound {ents : List (Nat × TypeId × Nat)} {ids : List Nat} :
    ∀ pr ∈ groupRows ents ids, ∀ r ∈ pr.2,
      ∃ id, alookup ents id = some (pr.1, r) := by
  rw [groupRows]
  have hgen : ∀ (acc : List (TypeId × List Nat)),
      (∀ pr ∈ acc, ∀ r ∈ pr.2, ∃ id, alookup ents id = some (pr.1, r)) →
      ∀ pr ∈ groupRowsAux ents acc ids, ∀ r ∈ pr.2,
        ∃ id, alookup ents id = some (pr.1, r) := by
    induction ids with
    | nil =>
      intro acc hacc
      exact hacc
    | cons id0 rest ih =>
      intro acc hacc
      rw [groupRowsAux]
      cases hl0 : alookup ents id0 with
      | none => exact ih acc hacc
      | some v =>
        obtain ⟨tid, row⟩ := v
        refine ih _ ?_
        exact addToGroup_rows_sound (fun t r => ∃ id, alookup ents id = some (t, r))
          hacc ⟨id0, hl0⟩
  exact hgen [] (by simp)

theorem keysOf_addToGroup_mem (tid row : Nat) {acc : List (TypeId × List Nat)}
    (h : tid ∈ keysOf acc) : keysOf (addToGroup tid row acc) = keysOf acc := by
  induction acc with
  | nil => simp at h
  | cons hd tl ih =>
    obtain ⟨t0, rows0⟩ := hd
    by_cases h0 : t0 = tid
    · subst h0
      rw [addToGroup, if_pos rfl]
      rfl
    · rw [keysOf_cons, List.mem_cons] at h
      rcases h with h | h
      · exact absurd h.symm h0
      · rw [addToGroup, if_neg h0, keysOf_cons, keysOf_cons, ih h]

theorem keysOf_addToGroup_not_mem (tid row : Nat) {acc : List (TypeId × List Nat)}
    (h : tid ∉ keysOf acc) :
    keysOf (addToGroup tid row acc) = keysOf acc ++ [tid] := by
  induction acc with
  | nil => rfl
  | cons hd tl ih =>
    obtain ⟨t0, rows0⟩ := hd
    rw [keysOf_cons, List.mem_cons] at h
    push_neg at h
    rw [addToGroup, if_neg (Ne.symm h.1), keysOf_cons, keysOf_cons, ih h.2,
      List.cons_append]

theorem nodup_keysOf_addToGroup (tid row : Nat) {acc : List (TypeId × List Nat)}
    (h : (keysOf acc).Nodup) : (keysOf (addToGroup tid row acc)).Nodup := by
  by_cases hmem : tid ∈ keysOf acc
  · rw [keysOf_addToGroup_mem tid row hmem]
    exact h
  · rw [keysOf_addToGroup_not_mem tid row hmem]
    simp [List.nodup_append, h, hmem]

theorem nodup_keysOf_groupRows (ents : List (Nat × TypeId × Nat)) (ids : List Nat) :
    (keysOf (groupRows ents ids)).Nodup := by
  rw [groupRows]
  have hgen : ∀ (acc : List (TypeId × List Nat)), (keysOf acc).Nodup →
      (keysOf (groupRowsAux ents acc ids)).Nodup := by
    induction ids with
    | nil => exact fun acc h => h
    | cons id0 rest ih =>
      intro acc hacc
      rw [groupRowsAux]
      cases hl0 : alookup ents id0 with
      | none => exact ih acc hacc
      | some v =>
        obtain ⟨tid, row⟩ := v
        exact ih _ (nodup_keysOf_addToGroup tid row hacc)
  exact hgen [] (by simp)

/-! ### Round-trip: lookup helpers -/

theorem alookup_map_of_some {α β : Type} {l : List (Nat × α)} {k : Nat} {v : α}
    (f : Nat × α → β) (h : alookup l k = some v) :
    alookup (l.map (fun p => (p.1, f p))) k = some (f (k, v)) := by
  induction l with
  | nil => simp at h
  | cons hd tl ih =>
    obtain ⟨k0, v0⟩ := hd
    by_cases h0 : k0 = k
    · subst h0
      rw [alookup_cons, if_pos rfl] at h
      obtain rfl := Option.some.inj h
      rw [List.map_cons]
      show alookup ((k0, f (k0, v0)) :: _) k0 = some (f (k0, v0))
      rw [alookup_cons, if_pos rfl]
    · rw [alookup_cons, if_neg h0] at h
      rw [List.map_cons]
      show alookup ((k0, f (k0, v0)) :: _) k = _
      rw [alookup_cons, if_neg h0]
      exact ih h

theorem find?_hash_eq_alookup {l : List (Nat × Table)} {tid : Nat} {v : Table}
    (h : alookup l tid = some v) :
    l.find? (fun p => hashTid p.1 == hashTid tid) = some (tid, v) := by
  induction l with
  | nil => simp at h
  | cons hd tl ih =>
    obtain ⟨k0, v0⟩ := hd
    by_cases h0 : k0 = tid
    · subst h0
      rw [alookup_cons, if_pos rfl] at h
      obtain rfl := Option.some.inj h
      rw [List.find?_cons]
      have : (hashTid k0 == hashTid k0) = true := by simp
      rw [this]
    · rw [alookup_cons, if_neg h0] at h
      rw [List.find?_cons]
      have : (hashTid k0 == hashTid tid) = false := by
        simp [hashTid]
        exact h0
      rw [this]
      exact ih h

/-! ### Round-trip: loading rows into a table -/

theorem Table_new_inj {s1 s2 : List TypeId} (h : Table.new s1 = Table.new s2) :
    s1 = s2 := by
  have h2 := congrArg (fun t : Table => t.columns.map Prod.fst) h
  rwa [show (fun t : Table => t.columns.map Prod.fst) (Table.new s1)
      = (Table.new s1).columns.map Prod.fst from rfl,
    show (fun t : Table => t.columns.map Prod.fst) (Table.new s2)
      = (Table.new s2).columns.map Prod.fst from rfl,
    (TableWF_new s1).tags, (TableWF_new s2).tags] at h2

theorem addRows_good_spec {schema : List TypeId} {goodRows : List (List Nat)}
    {t : Table} (hwf : TableWF schema t)
    (harity : ∀ v ∈ goodRows, v.length = schema.length) :
    ∃ t1, addRows schema t (goodRows.map SceneRow.good)
        = some (t1, List.range' t.length goodRows.length) ∧
      TableWF schema t1 ∧ t1.length = t.length + goodRows.length ∧
      t1.saved = t.saved ∧
      (∀ j, ∀ v : List Nat, goodRows[j]? = some v →
        Archetype.get schema t1 (t.length + j) = some v) ∧
      (∀ r, r < t.length → Archetype.get schema t1 r = Archetype.get schema t r) := by
  induction goodRows generalizing t with
  | nil =>
    refine ⟨t, rfl, hwf, by simp, rfl, ?_, fun r _ => rfl⟩
    intro j v hv
    simp at hv
  | cons v rest ih =>
    have hv : v.length = schema.length := harity v (List.mem_cons_self _ _)
    obtain ⟨haddwf, haddlen⟩ := TableWF_add hwf hv
    obtain ⟨t1, hadd, ht1wf, ht1len, ht1saved, hnew, hold⟩ :=
      ih (t := (Archetype.add schema v t).1) haddwf
        (fun x hx => harity x (List.mem_cons_of_mem _ hx))
    refine ⟨t1, ?_, ht1wf, ?_, ?_, ?_, ?_⟩
    · rw [List.map_cons, addRows, hadd, Option.map_some']
      rw [show (v :: rest).length = rest.length + 1 from rfl, List.range'_succ]
      rw [haddlen] at hadd ⊢
      rw [show (Archetype.add schema v t).2 = t.length from rfl]
    · rw [ht1len, haddlen]
      show t.length + 1 + rest.length = t.length + (rest.length + 1)
      omega
    · rw [ht1saved]
      rfl
    · intro j v0 hv0
      cases j with
      | zero =>
        rw [List.getElem?_cons_zero] at hv0
        obtain rfl := Option.some.inj hv0
        have h1 : Archetype.get schema t1 t.length
            = Archetype.get schema (Archetype.add schema v t).1 t.length := by
          refine hold t.length ?_
          rw [haddlen]
          omega
        have h2 : Archetype.get schema (Archetype.add schema v t).1 t.length
            = some v :=
          getFields_pushFields_last hwf.tags hwf.tys hwf.lens hv
        rw [show t.length + 0 = t.length from rfl, h1, h2]
      | succ j0 =>
        rw [List.getElem?_cons_succ] at hv0
        have := hnew j0 v0 hv0
        rw [haddlen] at this
        rw [show t.length + (j0 + 1) = t.length + 1 + j0 from by omega]
        exact this
    · intro r hr
      have h1 : Archetype.get schema t1 r
          = Archetype.get schema (Archetype.add schema v t).1 r := by
        refine hold r ?_
        rw [haddlen]
        omega
      have h2 : Archetype.get schema (Archetype.add schema v t).1 r
          = Archetype.get schema t r :=
        getFields_pushFields_lt hwf.tags hwf.tys hwf.lens hv hr
      rw [h1, h2]

/-! ### Round-trip: minted ids -/

theorem insertLoaded_archetypes (tid : TypeId) (idxs : List Nat) (w : World) :
    (insertLoaded w tid idxs).archetypes = w.archetypes := by
  induction idxs generalizing w with
  | nil => rfl
  | cons idx rest ih => rw [insertLoaded, ih]

theorem insertLoaded_lookup (tid : TypeId) (idxs : List Nat) (w : World)
    (hids : ∀ p ∈ w.entities, p.1 < w.next_id) :
    (∀ j, ∀ idx : Nat, idxs[j]? = some idx →
      alookup (insertLoaded w tid idxs).entities (w.next_id + j)
        = some (tid, idx)) ∧
    (∀ id, id < w.next_id →
      alookup (insertLoaded w tid idxs).entities id = alookup w.entities id) := by
  induction idxs generalizing w with
  | nil =>
    refine ⟨?_, fun id _ => rfl⟩
    intro j idx hj
    simp at hj
  | cons idx rest ih =>
    rw [insertLoaded]
    have hids1 : ∀ p ∈ (ainsert w.next_id (tid, idx) w.entities), p.1 < w.next_id + 1 := by
      intro p hp
      rcases mem_ainsert_weak hp with rfl | hp
      · show w.next_id < w.next_id + 1
        omega
      · have := hids p hp
        omega
    obtain ⟨ih1, ih2⟩ := ih { w with
      entities := ainsert w.next_id (tid, idx) w.entities,
      next_id := w.next_id + 1 } hids1
    constructor
    · intro j idx0 hj
      cases j with
      | zero =>
        rw [List.getElem?_cons_zero] at hj
        obtain rfl := Option.some.inj hj
        have hpres := ih2 w.next_id (by show w.next_id < w.next_id + 1; omega)
        rw [show w.next_id + 0 = w.next_id from rfl, hpres]
        show alookup (ainsert w.next_id (tid, idx) w.entities) w.next_id
          = some (tid, idx)
        exact alookup_ainsert_self _ _ _
      | succ j0 =>
        rw [List.getElem?_cons_succ] at hj
        have := ih1 j0 idx0 hj
        rw [show w.next_id + (j0 + 1) = w.next_id + 1 + j0 from by omega]
        exact this
    · intro id hid
      rw [ih2 id (by show id < w.next_id + 1; omega)]
      show alookup (ainsert w.next_id (tid, idx) w.entities) id = alookup w.entities id
      exact alookup_ainsert_ne _ _ _ _ (by omega)

/-! ### Round-trip: loading preserves untouched state -/

theorem visitMap_preserves {input : List (Nat × List SceneRow)} {w w' : World}
    {s : Scene} (hids : ∀ p ∈ w.entities, p.1 < w.next_id)
    (hok : visitMap w input = .ok w' s) :
    (∀ tid : Nat, (∀ p ∈ input, hashTid tid ≠ p.1) →
      alookup w'.archetypes tid = alookup w.archetypes tid) ∧
    (∀ id, id < w.next_id → alookup w'.entities id = alookup w.entities id) ∧
    w.next_id ≤ w'.next_id := by
  induction input generalizing w with
  | nil =>
    rw [visitMap] at hok
    obtain ⟨rfl, rfl⟩ : (w, (⟨[]⟩ : Scene)) = (w', s) := by
      cases hok
      exact rfl
    exact ⟨fun _ _ => rfl, fun _ _ => rfl, Nat.le_refl _⟩
  | cons hd rest ih =>
    obtain ⟨h, rows⟩ := hd
    rw [visitMap] at hok
    cases hfind : w.archetypes.find? (fun p => hashTid p.1 == h) with
    | none => rw [hfind] at hok; cases hok
    | some pr =>
      obtain ⟨tid0, table⟩ := pr
      rw [hfind] at hok
      cases hsaved : table.saved with
      | false =>
        simp only [hsaved, Bool.false_eq_true, if_false] at hok
        cases hok
      | true =>
        simp only [hsaved, if_true] at hok
        cases hadd : addRows (table.columns.map Prod.fst) table rows with
        | none => rw [hadd] at hok; cases hok
        | some p =>
          obtain ⟨table1, idxs⟩ := p
          rw [hadd] at hok
          have hbase : ∀ q ∈ ({ w with
              archetypes := ainsert tid0 table1 w.archetypes } : World).entities,
              q.1 < ({ w with
                archetypes := ainsert tid0 table1 w.archetypes } : World).next_id := hids
          obtain ⟨hle1, hlids, hlnext⟩ := insertLoaded_facts tid0 idxs
            { w with archetypes := ainsert tid0 table1 w.archetypes } hbase
          rw [show ({ w with archetypes := ainsert tid0 table1 w.archetypes } : World).next_id
            = w.next_id from rfl] at hlnext
          obtain ⟨ihA, ihE, ihN⟩ := ih hlids hok
          have htid0 : hashTid tid0 = h := by
            simpa using List.find?_some hfind
          refine ⟨?_, ?_, ?_⟩
          · intro tid htid
            rw [ihA tid (fun p hp => htid p (List.mem_cons_of_mem _ hp)),
              insertLoaded_archetypes]
            show alookup (ainsert tid0 table1 w.archetypes) tid = alookup w.archetypes tid
            refine alookup_ainsert_ne _ _ _ _ ?_
            intro hco
            subst hco
            exact htid (h, rows) (List.mem_cons_self _ _) htid0
          · intro id hid
            have h1 := ihE id (by omega)
            obtain ⟨-, hpres⟩ := insertLoaded_lookup tid0 idxs
              { w with archetypes := ainsert tid0 table1 w.archetypes } hbase
            rw [h1, hpres id hid]
          · omega

/-! ### Round-trip: loading a serialized group list into a fresh world -/

theorem visitMap_groups_spec (gdata : List (TypeId × List (List Nat))) :
    ∀ (w : World), (∀ p ∈ w.entities, p.1 < w.next_id) →
    (keysOf gdata).Nodup →
    (∀ pr ∈ gdata, ∃ schema, alookup w.archetypes pr.1 = some (Table.new schema) ∧
      ∀ v ∈ pr.2, v.length = schema.length) →
    ∃ w' s',
      visitMap w (gdata.map (fun p => (hashTid p.1, p.2.map SceneRow.good)))
        = .ok w' s' ∧
      ∀ pr ∈ gdata, ∀ schema,
        alookup w.archetypes pr.1 = some (Table.new schema) →
        ∀ j, ∀ v : List Nat, pr.2[j]? = some v →
          ∃ idf table1, alookup w'.entities idf = some (pr.1, j) ∧
            alookup w'.archetypes pr.1 = some table1 ∧
            Archetype.get schema table1 j = some v := by
  induction gdata with
  | nil =>
    intro w hids hnd htables
    exact ⟨w, ⟨[]⟩, rfl, fun pr hpr => absurd hpr (List.not_mem_nil pr)⟩
  | cons hd rest ih =>
    obtain ⟨tid, srows⟩ := hd
    intro w hids hnd htables
    rw [keysOf_cons, List.nodup_cons] at hnd
    obtain ⟨schema, htab, harity⟩ := htables (tid, srows) (List.mem_cons_self _ _)
    dsimp only at htab harity
    obtain ⟨t1, hadd, ht1wf, ht1len, ht1saved, hnew, hold⟩ :=
      addRows_good_spec (TableWF_new schema) harity
    have hsch : (Table.new schema).columns.map Prod.fst = schema :=
      (TableWF_new schema).tags
    have hfind := find?_hash_eq_alookup htab
    -- the state after loading this group
    have hbase : ∀ q ∈ ({ w with
        archetypes := ainsert tid t1 w.archetypes } : World).entities,
        q.1 < ({ w with
          archetypes := ainsert tid t1 w.archetypes } : World).next_id := hids
    obtain ⟨hmidlen, hmidids, hmidnext⟩ := insertLoaded_facts tid
      (List.range' 0 srows.length)
      { w with archetypes := ainsert tid t1 w.archetypes } hbase
    rw [show ({ w with archetypes := ainsert tid t1 w.archetypes } : World).next_id
      = w.next_id from rfl] at hmidnext
    obtain ⟨hlk, hlkpres⟩ := insertLoaded_lookup tid (List.range' 0 srows.length)
      { w with archetypes := ainsert tid t1 w.archetypes } hbase
    have htablesmid : ∀ pr ∈ rest, ∃ schema2,
        alookup (insertLoaded { w with archetypes := ainsert tid t1 w.archetypes }
          tid (List.range' 0 srows.length)).archetypes pr.1
          = some (Table.new schema2) ∧ ∀ v ∈ pr.2, v.length = schema2.length := by
      intro pr hpr
      obtain ⟨schema2, htab2, har2⟩ := htables pr (List.mem_cons_of_mem _ hpr)
      refine ⟨schema2, ?_, har2⟩
      rw [insertLoaded_archetypes]
      show alookup (ainsert tid t1 w.archetypes) pr.1 = some (Table.new schema2)
      rw [alookup_ainsert_ne _ _ _ _ ?hner]
      · exact htab2
      case hner =>
        intro hco
        exact hnd.1 (hco ▸ List.mem_map.mpr ⟨pr, hpr, rfl⟩)
    obtain ⟨w', s', hok', hrest⟩ := ih
      (insertLoaded { w with archetypes := ainsert tid t1 w.archetypes }
        tid (List.range' 0 srows.length)) hmidids hnd.2 htablesmid
    obtain ⟨hpresA, hpresE, hpresN⟩ := visitMap_preserves hmidids hok'
    refine ⟨w', s', ?_, ?_⟩
    · rw [List.map_cons, visitMap, hfind]
      simp only [show (Table.new schema).saved = true from rfl, if_true]
      rw [hsch, hadd]
      exact hok'
    · intro pr hpr schema' htab' j v hjv
      rcases List.mem_cons.mp hpr with heq | hpr2
      · subst heq
        dsimp only at htab' hjv ⊢
        rw [htab] at htab'
        obtain hts := Table_new_inj (Option.some.inj htab')
        subst hts
        have hj : j < srows.length := by
          by_contra hcon
          rw [List.getElem?_eq_none (by omega)] at hjv
          cases hjv
        refine ⟨w.next_id + j, t1, ?_, ?_, ?_⟩
        · rw [hpresE (w.next_id + j) (by rw [hmidnext, List.length_range']; omega)]
          have hrj : (List.range' 0 srows.length)[j]? = some j := by
            rw [List.getElem?_eq_getElem (by rw [List.length_range']; exact hj)]
            rw [List.getElem_range']
            rw [show 0 + 1 * j = j from by omega]
          have := hlk j j hrj
          rw [show ({ w with archetypes := ainsert tid t1 w.archetypes } : World).next_id
            = w.next_id from rfl] at this
          exact this
        · rw [hpresA tid ?hnomatch, insertLoaded_archetypes]
          · show alookup (ainsert tid t1 w.archetypes) tid = some t1
            exact alookup_ainsert_self _ _ _
          case hnomatch =>
            intro p hp
            obtain ⟨pr2, hpr2, rfl⟩ := List.mem_map.mp hp
            show hashTid tid ≠ hashTid pr2.1
            simp only [hashTid]
            intro hco
            exact hnd.1 (hco ▸ List.mem_map.mpr ⟨pr2, hpr2, rfl⟩)
        · have := hnew j v hjv
          rw [show (Table.new schema).length = 0 from rfl, Nat.zero_add] at this
          exact this
      · obtain ⟨schema2, htab2, har2⟩ := htablesmid pr hpr2
        have hsame : schema2 = schema' := by
          obtain ⟨schema3, htab3, _⟩ := htables pr (List.mem_cons_of_mem _ hpr2)
          have e1 : alookup (insertLoaded { w with
              archetypes := ainsert tid t1 w.archetypes }
              tid (List.range' 0 srows.length)).archetypes pr.1
              = some (Table.new schema3) := by
            rw [insertLoaded_archetypes]
            show alookup (ainsert tid t1 w.archetypes) pr.1 = some (Table.new schema3)
            rw [alookup_ainsert_ne _ _ _ _ ?hner2]
            · exact htab3
            case hner2 =>
              intro hco
              exact hnd.1 (hco ▸ List.mem_map.mpr ⟨pr, hpr2, rfl⟩)
          have e2 : schema2 = schema3 :=
            Table_new_inj (Option.some.inj (htab2.symm.trans e1))
          have e3 : schema3 = schema' :=
            Table_new_inj (Option.some.inj (htab3.symm.trans htab'))
          exact e2.trans e3
        subst hsame
        exact hrest pr hpr2 schema2 htab2 j v hjv

/-! ### Round-trip: serializing the grouped rows -/

theorem serializeGroup_spec {w : World} {tid : Nat} {rows : List Nat}
    {table : Table}
    (htab : alookup w.archetypes tid = some table)
    (hsaved : table.saved = true)
    (htys : ∀ p ∈ table.columns, p.2.data.ty = p.1)
    (hlens : ∀ p ∈ table.columns, p.2.data.dataList.length = table.length)
    (hrows : ∀ r ∈ rows, r < table.length) :
    ∃ srows, serializeGroup w tid rows = some (hashTid tid, srows) ∧
      optMap (Archetype.get (table.columns.map Prod.fst) table) rows = some srows := by
  have hsome : ∀ r ∈ rows,
      (Archetype.get (table.columns.map Prod.fst) table r).isSome := by
    intro r hr
    obtain ⟨vals, hv, -⟩ := @getFields_some_of_wf table.columns
      (table.columns.map Prod.fst) r table.length rfl htys hlens (hrows r hr)
    rw [show Archetype.get (table.columns.map Prod.fst) table r
      = getFields table.columns (table.columns.map Prod.fst) r from rfl, hv]
    rfl
  obtain ⟨srows, hsrows⟩ := optMap_some_of_forall hsome
  refine ⟨srows, ?_, hsrows⟩
  simp only [serializeGroup, htab, Option.bind_eq_bind, Option.some_bind,
    hsaved, if_true, hsrows]
  rfl

theorem optMap_serializeGroups {w : World} (groups : List (TypeId × List Nat))
    (hgood : ∀ pr ∈ groups, ∃ table, alookup w.archetypes pr.1 = some table ∧
      table.saved = true ∧ (∀ p2 ∈ table.columns, p2.2.data.ty = p2.1) ∧
      (∀ p2 ∈ table.columns, p2.2.data.dataList.length = table.length) ∧
      ∀ r ∈ pr.2, r < table.length) :
    ∃ gdata : List (TypeId × List (List Nat)),
      optMap (fun p => serializeGroup w p.1 p.2) groups
        = some (gdata.map (fun p => (hashTid p.1, p.2))) ∧
      keysOf gdata = keysOf groups ∧
      List.Forall₂ (fun (pr : TypeId × List Nat) (qr : TypeId × List (List Nat)) =>
        qr.1 = pr.1 ∧ ∃ table, alookup w.archetypes pr.1 = some table ∧
          optMap (Archetype.get (table.columns.map Prod.fst) table) pr.2
            = some qr.2)
        groups gdata := by
  induction groups with
  | nil => exact ⟨[], rfl, rfl, List.Forall₂.nil⟩
  | cons pr rest ih =>
    obtain ⟨table, htab, hsv, htys, hlens, hrows⟩ := hgood pr (List.mem_cons_self _ _)
    obtain ⟨srows, hser, hopt⟩ := serializeGroup_spec htab hsv htys hlens hrows
    obtain ⟨gdata, hogd, hkeys, hrel⟩ := ih
      (fun q hq => hgood q (List.mem_cons_of_mem _ hq))
    refine ⟨(pr.1, srows) :: gdata, ?_, ?_, ?_⟩
    · rw [optMap, hser, hogd]
      rfl
    · rw [keysOf_cons, keysOf_cons, hkeys]
    · exact List.Forall₂.cons ⟨rfl, table, htab, hopt⟩ hrel

theorem forall₂_mem_left {α β : Type} {R : α → β → Prop} {l1 : List α}
    {l2 : List β} (h : List.Forall₂ R l1 l2) :
    ∀ a ∈ l1, ∃ b ∈ l2, R a b := by
  induction h with
  | nil => simp
  | cons hr htl ih =>
    intro a ha
    rcases List.mem_cons.mp ha with rfl | ha
    · exact ⟨_, List.mem_cons_self _ _, hr⟩
    · obtain ⟨b, hb, hrb⟩ := ih a ha
      exact ⟨b, List.mem_cons_of_mem _ hb, hrb⟩

theorem forall₂_mem_right {α β : Type} {R : α → β → Prop} {l1 : List α}
    {l2 : List β} (h : List.Forall₂ R l1 l2) :
    ∀ b ∈ l2, ∃ a ∈ l1, R a b := by
  induction h with
  | nil => simp
  | cons hr htl ih =>
    intro b hb
    rcases List.mem_cons.mp hb with rfl | hb
    · exact ⟨_, List.mem_cons_self _ _, hr⟩
    · obtain ⟨a, ha, hra⟩ := ih b hb
      exact ⟨a, List.mem_cons_of_mem _ ha, hra⟩

theorem addToGroup_nonempty {tid row : Nat} {acc : List (TypeId × List Nat)}
    (hacc : ∀ pr ∈ acc, pr.2 ≠ []) :
    ∀ pr ∈ addToGroup tid row acc, pr.2 ≠ [] := by
  induction acc with
  | nil =>
    intro pr hpr
    rw [addToGroup] at hpr
    obtain rfl := List.mem_singleton.mp hpr
    simp
  | cons hd tl ih =>
    obtain ⟨t0, rows0⟩ := hd
    by_cases h0 : t0 = tid
    · subst h0
      rw [addToGroup, if_pos rfl]
      intro pr hpr
      rcases List.mem_cons.mp hpr with rfl | hpr2
      · simp
      · exact hacc pr (List.mem_cons_of_mem _ hpr2)
    · rw [addToGroup, if_neg h0]
      intro pr hpr
      rcases List.mem_cons.mp hpr with rfl | hpr2
      · exact hacc (t0, rows0) (List.mem_cons_self _ _)
      · exact ih (fun q hq => hacc q (List.mem_cons_of_mem _ hq)) pr hpr2

theorem groupRows_buckets_nonempty {ents : List (Nat × TypeId × Nat)}
    {ids : List Nat} : ∀ pr ∈ groupRows ents ids, pr.2 ≠ [] := by
  rw [groupRows]
  have hgen : ∀ (acc : List (TypeId × List Nat)), (∀ pr ∈ acc, pr.2 ≠ []) →
      ∀ pr ∈ groupRowsAux ents acc ids, pr.2 ≠ [] := by
    induction ids with
    | nil => exact fun acc h => h
    | cons id0 rest ih =>
      intro acc hacc
      rw [groupRowsAux]
      cases hl0 : alookup ents id0 with
      | none => exact ih acc hacc
      | some v =>
        obtain ⟨tid, row⟩ := v
        exact ih _ (addToGroup_nonempty hacc)
  exact hgen [] (by simp)

/-- C4: `Scene::save` of a set of live entities from a world, followed by
`Scene::load` of the saved data into a fresh world with the same archetypes
registered, reconstructs for every saved entity an entity whose component
values are field-wise equal to the original's (the reconstructed `EntityId`
may differ). -/
theorem scene_roundtrip (schemaOf : TypeId → List TypeId) (w w2 : World)
    (s : Scene) (hwf : WorldWF schemaOf w)
    (hallsaved : ∀ p ∈ w.archetypes, p.2.saved = true)
    (harch2 : w2.archetypes
      = w.archetypes.map (fun p => (p.1, Table.new (p.2.columns.map Prod.fst))))
    (hids2 : ∀ p ∈ w2.entities, p.1 < w2.next_id) :
    ∃ data w' s', s.save w = some data ∧
      Scene.load w2 (data.map (fun p => (p.1, p.2.map SceneRow.good)))
        = .ok w' s' ∧
      ∀ id tid row, id ∈ s.entities → alookup w.entities id = some (tid, row) →
        ∃ table vals idf table1 rowf,
          alookup w.archetypes tid = some table ∧
          Archetype.get (table.columns.map Prod.fst) table row = some vals ∧
          alookup w'.entities idf = some (tid, rowf) ∧
          alookup w'.archetypes tid = some table1 ∧
          Archetype.get (table.columns.map Prod.fst) table1 rowf = some vals := by
  have hgood : ∀ pr ∈ groupRows w.entities s.entities,
      ∃ table, alookup w.archetypes pr.1 = some table ∧
      table.saved = true ∧ (∀ p2 ∈ table.columns, p2.2.data.ty = p2.1) ∧
      (∀ p2 ∈ table.columns, p2.2.data.dataList.length = table.length) ∧
      ∀ r ∈ pr.2, r < table.length := by
    intro pr hpr
    obtain ⟨r0, hr0⟩ : ∃ r0, r0 ∈ pr.2 := by
      have hne := groupRows_buckets_nonempty pr hpr
      cases h2 : pr.2 with
      | nil => exact absurd h2 hne
      | cons a l => exact ⟨a, List.mem_cons_self _ _⟩
    obtain ⟨id0, hid0⟩ := groupRows_rows_sound pr hpr r0 hr0
    obtain ⟨table, htab, -⟩ := hwf.valid _ (alookup_eq_some_mem hid0)
    have htab2 : alookup w.archetypes pr.1 = some table := htab
    have htw := hwf.tablesWF (pr.1, table) (alookup_eq_some_mem htab2)
    refine ⟨table, htab2, hallsaved (pr.1, table) (alookup_eq_some_mem htab2),
      htw.tys, htw.lens, ?_⟩
    intro r hr
    obtain ⟨idr, hidr⟩ := groupRows_rows_sound pr hpr r hr
    obtain ⟨tableB, htabB, hlt⟩ := hwf.valid _ (alookup_eq_some_mem hidr)
    have htabB2 : alookup w.archetypes pr.1 = some tableB := htabB
    obtain rfl := Option.some.inj (htab2.symm.trans htabB2)
    exact hlt
  obtain ⟨gdata, hogd, hkeys, hrel⟩ :=
    optMap_serializeGroups (groupRows w.entities s.entities) hgood
  have hgnd : (keysOf gdata).Nodup := by
    rw [hkeys]
    exact nodup_keysOf_groupRows _ _
  have htables2 : ∀ qr ∈ gdata, ∃ schema,
      alookup w2.archetypes qr.1 = some (Table.new schema) ∧
      ∀ v ∈ qr.2, v.length = schema.length := by
    intro qr hqr
    obtain ⟨pr, hpr, hq1, table, htabw, hopt⟩ := forall₂_mem_right hrel qr hqr
    refine ⟨table.columns.map Prod.fst, ?_, ?_⟩
    · rw [hq1, harch2]
      exact alookup_map_of_some _ htabw
    · intro v hv
      obtain ⟨r, hr, hget⟩ := optMap_mem_spec hopt v hv
      exact getFields_length hget
  obtain ⟨w', s', hok', hconc⟩ := visitMap_groups_spec gdata w2 hids2 hgnd htables2
  refine ⟨gdata.map (fun p => (hashTid p.1, p.2)), w', s', ?_, ?_, ?_⟩
  · rw [Scene.save, hogd]
  · show visitMap w2 _ = _
    rw [List.map_map]
    exact hok'
  · intro id tid row hid hlook
    obtain ⟨rows, hgm, hrm⟩ := GMem_groupRows hid hlook
    obtain ⟨qr, hqr, hq1, table, htabw, hopt⟩ := forall₂_mem_left hrel (tid, rows) hgm
    dsimp only at hq1 htabw hopt
    obtain ⟨k, hk⟩ := List.mem_iff_getElem?.mp hrm
    obtain ⟨hlen2, hpoint⟩ := optMap_some_spec hopt
    have hget0 := hpoint k row hk
    obtain ⟨vals, hvals⟩ : ∃ vals, qr.2[k]? = some vals := by
      have hkr : k < rows.length := by
        by_contra hcon
        rw [List.getElem?_eq_none (by omega)] at hk
        cases hk
      rw [List.getElem?_eq_getElem (by omega)]
      exact ⟨_, rfl⟩
    have hget : Archetype.get (table.columns.map Prod.fst) table row = some vals :=
      hget0.trans hvals
    have hsch2 : alookup w2.archetypes qr.1
        = some (Table.new (table.columns.map Prod.fst)) := by
      rw [hq1, harch2]
      exact alookup_map_of_some _ htabw
    obtain ⟨idf, table1, hent', harch', hget'⟩ :=
      hconc qr hqr (table.columns.map Prod.fst) hsch2 k vals hvals
    rw [hq1] at hent' harch'
    exact ⟨table, vals, idf, table1, k, htabw, hget, hent', harch', hget'⟩

def c4SchemaOf : TypeId → List TypeId := fun _ => [5]

def c4Ops : List Op := [.spawn 7 [10], .spawn 7 [20]]

def c4World : World :=
  (applyOps c4SchemaOf (registerAll c4SchemaOf World.empty [(7, true)]) c4Ops).getD
    World.empty

def c4Fresh : World := World.empty.register c4SchemaOf 7

theorem scene_roundtrip_witness :
    ∃ data w' s', Scene.save ⟨[0, 1]⟩ c4World = some data ∧
      Scene.load c4Fresh (data.map (fun p => (p.1, p.2.map SceneRow.good)))
        = .ok w' s' ∧
      ∀ id tid row, id ∈ (⟨[0, 1]⟩ : Scene).entities →
        alookup c4World.entities id = some (tid, row) →
        ∃ table vals idf table1 rowf,
          alookup c4World.archetypes tid = some table ∧
          Archetype.get (table.columns.map Prod.fst) table row = some vals ∧
          alookup w'.entities idf = some (tid, rowf) ∧
          alookup w'.archetypes tid = some table1 ∧
          Archetype.get (table.columns.map Prod.fst) table1 rowf = some vals :=
  scene_roundtrip c4SchemaOf c4World c4Fresh ⟨[0, 1]⟩
    (@WorldWF_applyOps c4SchemaOf (registerAll c4SchemaOf World.empty [(7, true)])
      c4World c4Ops
      (WorldWF_registerAll c4SchemaOf [(7, true)] (WorldWF_empty c4SchemaOf) rfl).1
      (by
        intro op hop
        simp only [c4Ops, List.mem_cons, List.not_mem_nil, or_false] at hop
        rcases hop with rfl | rfl <;> exact rfl)
      rfl)
    (by decide) (by decide) (by decide)

end Tecs

